import Mathlib

/-! A verification development for `src/tetris.js`.

The game logic of the falling-block game is embedded as pure functions over an
explicit game state.  JavaScript values are represented as follows.

* A cell, a shape entry and a coordinate are numbers: `Int`.
* An array is a `List`.  Reading an index that is absent yields `undefined`; every such
  read in the program is either a truthiness test or the source of a copy, so it is
  represented by the falsy number `0`.  Reading a property of `undefined` is a
  `TypeError`, represented by `Fault.typeError`.
* The random index drawn by `createPiece` is a parameter of type `Fin 7`.
* The globals `board`, `current`, `dropCounter`, `lastTime`, `gameOver` are the fields of
  `State`; a function that mutates them returns the new state.
-/

namespace Tetris

/-- Abnormal ends of a run of the embedded code. -/
inductive Fault
  | typeError
  | outOfFuel
deriving DecidableEq, Repr

deriving instance DecidableEq for Except

/-- `const COLS = 10` (line 10). -/
def COLS : Nat := 10

/-- `const ROWS = 20` (line 11). -/
def ROWS : Nat := 20

/-- A matrix of numbers: a shape or the board. -/
abbrev Matrix := List (List Int)

/-- The board is an array of rows of cell values. -/
abbrev Board := Matrix

/-- `const SHAPES` (lines 14-57): I, J, L, O, S, T, Z. -/
def SHAPES : List Matrix :=
  [ [[0, 0, 0, 0], [1, 1, 1, 1], [0, 0, 0, 0], [0, 0, 0, 0]],
    [[1, 0, 0], [1, 1, 1], [0, 0, 0]],
    [[0, 0, 1], [1, 1, 1], [0, 0, 0]],
    [[1, 1], [1, 1]],
    [[0, 1, 1], [1, 1, 0], [0, 0, 0]],
    [[0, 1, 0], [1, 1, 1], [0, 0, 0]],
    [[1, 1, 0], [0, 1, 1], [0, 0, 0]] ]

/-- `const COLORS` (line 58). -/
def COLORS : List String :=
  ["cyan", "blue", "orange", "yellow", "green", "purple", "red"]

/-- The active piece: `{ shape, x, y, color }`. -/
structure Piece where
  shape : Matrix
  x : Int
  y : Int
  color : String
deriving DecidableEq, Repr

/-- The process-wide variables of lines 69-74 (`dropInterval` is never assigned and is a
constant). -/
structure State where
  board : Board
  current : Piece
  dropCounter : Int
  lastTime : Int
  gameOver : Bool
deriving DecidableEq, Repr

/-- `createPiece` (lines 59-68); `idx` is the value of
`Math.floor(Math.random() * SHAPES.length)`. -/
def createPiece (idx : Fin 7) : Piece :=
  let shape := SHAPES.getD idx.val []
  { shape := shape
    x := ((COLS / 2 : Nat) : Int) - ((((shape.getD 0 []).length + 1) / 2 : Nat) : Int)
    y := 0
    color := COLORS.getD idx.val "" }

/-- The board of line 69: `ROWS` rows of `COLS` zeros. -/
def emptyBoard : Board := List.replicate ROWS (List.replicate COLS 0)

/-- The condition of line 107 for one occupied shape cell:
`boardY >= ROWS || boardX < 0 || boardX >= COLS || board[boardY][boardX]`.
The lookup `board[boardY]` is `undefined` for a negative or absent row index, and indexing
it throws. -/
def hit (board : Board) (boardX boardY : Int) : Except Fault Bool :=
  if boardY ≥ (ROWS : Int) ∨ boardX < 0 ∨ boardX ≥ (COLS : Int) then .ok true
  else if boardY < 0 then .error .typeError
  else
    match board[boardY.toNat]? with
    | none => .error .typeError
    | some row => .ok (decide (row.getD boardX.toNat 0 ≠ 0))

/-- The inner loop of `collide` (lines 103-111) on the cells of shape row `y`, from
column `x` on. -/
def collideRow (board : Board) (piece : Piece) (y : Nat) : Nat → List Int → Except Fault Bool
  | _, [] => .ok false
  | x, value :: rest =>
    if value ≠ 0 then
      match hit board ((x : Int) + piece.x) ((y : Int) + piece.y) with
      | .ok true => .ok true
      | .ok false => collideRow board piece y (x + 1) rest
      | .error e => .error e
    else collideRow board piece y (x + 1) rest

/-- The outer loop of `collide` (lines 102-112) on the shape rows from index `y` on. -/
def collideFrom (board : Board) (piece : Piece) : Nat → Matrix → Except Fault Bool
  | _, [] => .ok false
  | y, row :: rest =>
    match collideRow board piece y 0 row with
    | .ok true => .ok true
    | .ok false => collideFrom board piece (y + 1) rest
    | .error e => .error e

/-- `collide(board, piece)` (lines 100-114). -/
def collide (board : Board) (piece : Piece) : Except Fault Bool :=
  collideFrom board piece 0 piece.shape


/-- The assignment `row[i] = v` on an array.  Inside the array it replaces the element; at
or past the end it extends the array, the skipped positions being holes (read as
`undefined`, hence `0` here); a negative `i` sets a property that is not an element, and no
read of the program ever asks for it, so the elements are unchanged. -/
def assign (row : List Int) (i : Int) (v : Int) : List Int :=
  if i < 0 then row
  else if i.toNat < row.length then row.set i.toNat v
  else row ++ List.replicate (i.toNat - row.length) 0 ++ [v]

/-- `COLORS.indexOf(color)`: the position of the color in the catalog, `-1` when absent. -/
def indexOf (color : String) : Int :=
  if color ∈ COLORS then ((COLORS.indexOf color : Nat) : Int) else -1

/-- The inner `forEach` of `merge` (lines 117-121) on the cells of shape row `y`, from
column `x` on.  `board[y + piece.y]` is `undefined` for a negative or absent row index, and
assigning into it throws. -/
def mergeRow (piece : Piece) (y : Nat) : Nat → List Int → Board → Except Fault Board
  | _, [], board => .ok board
  | x, value :: rest, board =>
    if value ≠ 0 then
      if (y : Int) + piece.y < 0 then .error .typeError
      else
        match board[((y : Int) + piece.y).toNat]? with
        | none => .error .typeError
        | some row =>
          mergeRow piece y (x + 1) rest
            (board.set ((y : Int) + piece.y).toNat
              (assign row ((x : Int) + piece.x) (indexOf piece.color + 1)))
    else mergeRow piece y (x + 1) rest board

/-- The outer `forEach` of `merge` (lines 116-122) on the shape rows from index `y` on. -/
def mergeFrom (piece : Piece) : Nat → Matrix → Board → Except Fault Board
  | _, [], board => .ok board
  | y, row :: rest, board =>
    match mergeRow piece y 0 row board with
    | .ok merged => mergeFrom piece (y + 1) rest merged
    | .error e => .error e

/-- `merge(board, piece)` (lines 115-123); the mutated board is returned. -/
def merge (board : Board) (piece : Piece) : Except Fault Board :=
  mergeFrom piece 0 piece.shape board

/-- The inner loop of `sweep` (lines 126-129) runs to its end: every `board[y][x]` with
`x < COLS` is truthy. -/
def rowFull (row : List Int) : Bool :=
  (List.range COLS).all fun x => row.getD x 0 != 0

/-- The loop of `sweep` (lines 125-134) from row index `y` on.  A full row is spliced out
and a row of zeros is put in front; `++y` followed by the loop's `--y` leaves `y` as it
is.  `fuel` bounds the number of iterations. -/
def sweepLoop : Nat → Board → Int → Except Fault Board
  | 0, _, _ => .error .outOfFuel
  | fuel + 1, board, y =>
    if y ≥ 0 then
      match board[y.toNat]? with
      | none => .error .typeError
      | some row =>
        if rowFull row then
          sweepLoop fuel (List.replicate COLS 0 :: board.eraseIdx y.toNat) (y + 1 - 1)
        else sweepLoop fuel board (y - 1)
    else .ok board

/-- `sweep()` (lines 124-135) on the board; the mutated board is returned. -/
def sweep (board : Board) : Except Fault Board :=
  sweepLoop (2 * ROWS + 1) board ((ROWS : Int) - 1)

/-- The element `m[r][c]` of a matrix, when it is read as a value. -/
def entry (m : Matrix) (r c : Nat) : Int :=
  (m.getD r []).getD c 0

/-- The assignment `result[x][j] = v` of `rotate`; there `x` is always the index of a row
of `result`. -/
def put (result : Matrix) (x j : Nat) (v : Int) : Matrix :=
  result.set x (assign (result.getD x []) (j : Int) v)

/-- `rotate(matrix)` (lines 155-164): `result` starts as a copy of the matrix and
`result[x][N - 1 - y] = matrix[y][x]` is run for all `y, x < N`. -/
def rotate (matrix : Matrix) : Matrix :=
  let N := matrix.length
  (List.range N).foldl (fun result y =>
    (List.range N).foldl (fun result x =>
      put result x (N - 1 - y) (entry matrix y x)) result) matrix

/-- `playerDrop()` (lines 136-148).  `current.y--` after `current.y++` gives back the
piece as it was. -/
def playerDrop (idx : Fin 7) (s : State) : Except Fault State :=
  match collide s.board { s.current with y := s.current.y + 1 } with
  | .error e => .error e
  | .ok false =>
    .ok { s with current := { s.current with y := s.current.y + 1 }, dropCounter := 0 }
  | .ok true =>
    match merge s.board s.current with
    | .error e => .error e
    | .ok merged =>
      match sweep merged with
      | .error e => .error e
      | .ok swept =>
        match collide swept (createPiece idx) with
        | .error e => .error e
        | .ok spawnCollides =>
          .ok { board := swept
                current := createPiece idx
                dropCounter := 0
                lastTime := s.lastTime
                gameOver := if spawnCollides then true else s.gameOver }

/-- `playerMove(dir)` (lines 149-154).  `current.x -= dir` after `current.x += dir` gives
back the piece as it was. -/
def playerMove (dir : Int) (s : State) : Except Fault State :=
  match collide s.board { s.current with x := s.current.x + dir } with
  | .error e => .error e
  | .ok true => .ok s
  | .ok false => .ok { s with current := { s.current with x := s.current.x + dir } }

/-- `playerRotate()` (lines 165-172). -/
def playerRotate (s : State) : Except Fault State :=
  match collide s.board { s.current with shape := rotate s.current.shape } with
  | .error e => .error e
  | .ok true => .ok s
  | .ok false => .ok { s with current := { s.current with shape := rotate s.current.shape } }

/-- The state after the top-level statements of lines 69-74, for the index drawn by the
first `createPiece`. -/
def initialState (idx : Fin 7) : State :=
  { board := emptyBoard, current := createPiece idx, dropCounter := 0, lastTime := 0,
    gameOver := false }

/-- `let dropInterval = 1000` (line 72); it is never assigned again. -/
def dropInterval : Int := 1000

/-- `update(time)` (lines 173-189).  `draw()` only paints.  The second component tells
whether the next frame was requested (`requestAnimationFrame(update)`, line 182); `idx` is
the index drawn if the drop spawns a piece. -/
def update (idx : Fin 7) (time : Int) (s : State) : Except Fault (State × Bool) :=
  match
    (if s.dropCounter + (time - s.lastTime) > dropInterval then
      playerDrop idx
        { s with lastTime := time, dropCounter := s.dropCounter + (time - s.lastTime) }
    else
      .ok { s with lastTime := time, dropCounter := s.dropCounter + (time - s.lastTime) })
  with
  | .error e => .error e
  | .ok s' => .ok (s', !s'.gameOver)

/-- The `keydown` listener (lines 191-202) for the key `e.key`; `idx` is the index drawn if
the drop spawns a piece. -/
def keydown (idx : Fin 7) (key : String) (s : State) : Except Fault State :=
  if s.gameOver then .ok s
  else if key = "ArrowLeft" then playerMove (-1) s
  else if key = "ArrowRight" then playerMove 1 s
  else if key = "ArrowDown" then playerDrop idx s
  else if key = "ArrowUp" then playerRotate s
  else .ok s

/-- The loop of `sweep` as in `sweepLoop`, together with the record of the row indices `y`
at which `board.splice(y, 1)` was run, in the order of the removals. -/
def sweepLoopLog : Nat → Board → Int → Except Fault (Board × List Nat)
  | 0, _, _ => .error .outOfFuel
  | fuel + 1, board, y =>
    if y ≥ 0 then
      match board[y.toNat]? with
      | none => .error .typeError
      | some row =>
        if rowFull row then
          match sweepLoopLog fuel (List.replicate COLS 0 :: board.eraseIdx y.toNat) (y + 1 - 1) with
          | .error e => .error e
          | .ok (swept, log) => .ok (swept, y.toNat :: log)
        else sweepLoopLog fuel board (y - 1)
    else .ok (board, [])

/-- `sweep()` with the record of the indices of its removals. -/
def sweepLog (board : Board) : Except Fault (Board × List Nat) :=
  sweepLoopLog (2 * ROWS + 1) board ((ROWS : Int) - 1)

/-! ## Vocabulary of the statements -/

/-- A board of `ROWS` rows of `COLS` cells. -/
def BoardWF (board : Board) : Prop :=
  board.length = ROWS ∧ ∀ row ∈ board, row.length = COLS

instance (board : Board) : Decidable (BoardWF board) := by
  unfold BoardWF; infer_instance

/-- Shape cell `(r, c)` exists and is nonzero. -/
def Occupied (m : Matrix) (r c : Nat) : Prop :=
  ∃ row v, m[r]? = some row ∧ row[c]? = some v ∧ v ≠ 0

/-- Board coordinate `(row, col)` is a cell of the board and holds a nonzero value. -/
def NonzeroAt (board : Board) (row col : Int) : Prop :=
  0 ≤ row ∧ 0 ≤ col ∧
    ∃ cells v, board[row.toNat]? = some cells ∧ cells[col.toNat]? = some v ∧ v ≠ 0

/-- Board coordinate `(boardX, boardY)` is left of column 0, right of the last column,
below the last row, or a nonzero board cell. -/
def Blocked (board : Board) (boardX boardY : Int) : Prop :=
  boardX < 0 ∨ boardX ≥ (COLS : Int) ∨ boardY ≥ (ROWS : Int) ∨ NonzeroAt board boardY boardX

/-- Some occupied shape cell of the piece maps to a blocked board coordinate. -/
def Collides (board : Board) (piece : Piece) : Prop :=
  ∃ r c : Nat, Occupied piece.shape r c ∧
    Blocked board (piece.x + (c : Int)) (piece.y + (r : Int))

/-- Some nonzero entry of `cells`, at position `i`, maps to a blocked coordinate when the
row starts at shape column `x0` of shape row `y`. -/
def RowCollides (board : Board) (piece : Piece) (y x0 : Nat) (cells : List Int) : Prop :=
  ∃ (i : Nat) (v : Int), cells[i]? = some v ∧ v ≠ 0 ∧
    Blocked board (piece.x + ((x0 + i : Nat) : Int)) (piece.y + (y : Int))

/-- Some occupied cell of the shape rows `rows`, which start at shape row `y0`, maps to a
blocked coordinate. -/
def RowsCollide (board : Board) (piece : Piece) (y0 : Nat) (rows : Matrix) : Prop :=
  ∃ (j : Nat) (cells : List Int), rows[j]? = some cells ∧ RowCollides board piece (y0 + j) 0 cells

/-- The rows reached by the occupied cells of the piece are not above the board. -/
def RowsNonneg (piece : Piece) : Prop :=
  ∀ r c : Nat, Occupied piece.shape r c → 0 ≤ piece.y + (r : Int)

/-- Every cell of the row is nonzero. -/
def fullyNonzero (row : List Int) : Bool :=
  row.all fun v => v != 0

/-- The board that the claim on `sweep` describes: one row of zeros for each fully-nonzero
row, followed by the other rows in their order. -/
def sweptBoard (board : Board) : Board :=
  List.replicate (board.countP fullyNonzero) (List.replicate COLS 0) ++
    board.filter fun row => !fullyNonzero row

/-- The value of board cell `(row, col)`, when the coordinate is a cell of the board. -/
def cellAt (board : Board) (row col : Int) : Option Int :=
  if 0 ≤ row ∧ 0 ≤ col then (board[row.toNat]?).bind fun cells => cells[col.toNat]? else none

/-- Board coordinate `(R, C)` lies under a nonzero entry of `cells`, the part of shape row
`y` that starts at shape column `x0`. -/
def RowTarget (piece : Piece) (y x0 : Nat) (cells : List Int) (R C : Int) : Prop :=
  ∃ (i : Nat) (v : Int), cells[i]? = some v ∧ v ≠ 0 ∧
    R = (y : Int) + piece.y ∧ C = ((x0 + i : Nat) : Int) + piece.x

/-- Board coordinate `(R, C)` lies under an occupied cell of the shape rows `rows`, which
start at shape row `y0`. -/
def RowsTarget (piece : Piece) (y0 : Nat) (rows : Matrix) (R C : Int) : Prop :=
  ∃ (j : Nat) (cells : List Int), rows[j]? = some cells ∧ RowTarget piece (y0 + j) 0 cells R C

/-- Board coordinate `(R, C)` lies under an occupied shape cell of the piece. -/
def Under (piece : Piece) (R C : Int) : Prop :=
  ∃ r c : Nat, Occupied piece.shape r c ∧ R = piece.y + (r : Int) ∧ C = piece.x + (c : Int)

/-- Board coordinate `(R, C)` is inside the `ROWS` x `COLS` grid. -/
def InGrid (R C : Int) : Prop :=
  0 ≤ R ∧ R < (ROWS : Int) ∧ 0 ≤ C ∧ C < (COLS : Int)

/-- A matrix of `N` rows of `N` entries. -/
def Square (N : Nat) (m : Matrix) : Prop :=
  m.length = N ∧ ∀ row ∈ m, row.length = N

instance (N : Nat) (m : Matrix) : Decidable (Square N m) := by
  unfold Square; infer_instance

/-- The transpose of a square matrix: entry `(i, j)` is `m[j][i]`. -/
def transposeSquare (m : Matrix) : Matrix :=
  (List.range m.length).map fun i => (List.range m.length).map fun j => entry m j i

/-- The clockwise quarter turn as the claim on `rotate` words it: transpose, then reverse
each row. -/
def quarterTurn (m : Matrix) : Matrix :=
  (transposeSquare m).map List.reverse

/-- The states the game can be in: the initial state for any first piece, closed under
`playerMove(-1)`, `playerMove(1)`, `playerRotate` and `playerDrop` with any spawn index,
whenever the call returns. -/
inductive Reachable : State → Prop
  | init (idx : Fin 7) : Reachable (initialState idx)
  | move {s s' : State} (dir : Int) : Reachable s → dir = -1 ∨ dir = 1 →
      playerMove dir s = .ok s' → Reachable s'
  | rotate {s s' : State} : Reachable s → playerRotate s = .ok s' → Reachable s'
  | drop {s s' : State} (idx : Fin 7) : Reachable s → playerDrop idx s = .ok s' →
      Reachable s'

/-- What every reachable state satisfies: the board is 20 x 10, the piece is not above the
board, and it does not collide unless the game is over and the piece sits where it was
spawned. -/
def Inv (s : State) : Prop :=
  BoardWF s.board ∧ 0 ≤ s.current.y ∧
    (collide s.board s.current = .ok false ∨
      (s.gameOver = true ∧ ∃ idx, s.current = createPiece idx))

/-- A board on which the game ends at the next landing: column 4 is filled from row 2
down. -/
def towerBoard : Board :=
  List.replicate 2 (List.replicate COLS 0) ++ List.replicate 18 [0, 0, 0, 0, 1, 0, 0, 0, 0, 0]

/-- The board `towerBoard` after the O shape has landed on top of the tower. -/
def cappedBoard : Board :=
  List.replicate 2 [0, 0, 0, 0, 4, 4, 0, 0, 0, 0] ++
    List.replicate 18 [0, 0, 0, 0, 1, 0, 0, 0, 0, 0]

/-- Every cell value lies in `[0, 7]`, 7 being the number of shapes. -/
def CellsInRange (board : Board) : Prop :=
  ∀ row ∈ board, ∀ v ∈ row, 0 ≤ v ∧ v ≤ 7

instance (board : Board) : Decidable (CellsInRange board) := by
  unfold CellsInRange; infer_instance

/-- No row of the board is fully nonzero. -/
def NoFullRow (board : Board) : Prop :=
  ∀ row ∈ board, fullyNonzero row = false

/-- No two vertically adjacent rows of the board are both fully nonzero. -/
def NoAdjacentFull (board : Board) : Prop :=
  ∀ (i : Nat) (upper lower : List Int), board[i]? = some upper → board[i + 1]? = some lower →
    ¬ (fullyNonzero upper = true ∧ fullyNonzero lower = true)

/-! # Theorems -/

/-! ## Collision checker -/

theorem hit_blocked {board : Board} {X Y : Int} (hY : 0 ≤ Y)
    (h : Blocked board X Y) : hit board X Y = .ok true := by
  unfold hit
  rcases h with h | h | h | ⟨_, h0, cells, v, hc, hv, hne⟩
  · rw [if_pos (Or.inr (Or.inl h))]
  · rw [if_pos (Or.inr (Or.inr h))]
  · rw [if_pos (Or.inl h)]
  · by_cases hb : Y ≥ (ROWS : Int) ∨ X < 0 ∨ X ≥ (COLS : Int)
    · rw [if_pos hb]
    · rw [if_neg hb, if_neg (not_lt.mpr hY), hc]
      simp [List.getD_eq_getElem?_getD, hv, hne]

theorem hit_free {board : Board} (hwf : BoardWF board) {X Y : Int} (hY : 0 ≤ Y)
    (h : ¬ Blocked board X Y) : hit board X Y = .ok false := by
  unfold hit
  have hb : ¬ (Y ≥ (ROWS : Int) ∨ X < 0 ∨ X ≥ (COLS : Int)) := by
    intro hb
    apply h
    rcases hb with hb | hb | hb
    · exact Or.inr (Or.inr (Or.inl hb))
    · exact Or.inl hb
    · exact Or.inr (Or.inl hb)
  rw [if_neg hb, if_neg (not_lt.mpr hY)]
  have hlt : Y.toNat < board.length := by
    rw [hwf.1]
    have : Y < (ROWS : Int) := by
      by_contra hc
      exact hb (Or.inl (not_lt.mp hc))
    omega
  rw [List.getElem?_eq_getElem hlt]
  simp only [Except.ok.injEq, decide_eq_false_iff_not, not_not]
  have hX : 0 ≤ X := by
    by_contra hc
    exact hb (Or.inr (Or.inl (not_le.mp hc)))
  by_contra hne
  apply h
  refine Or.inr (Or.inr (Or.inr ⟨hY, hX, board[Y.toNat], (board[Y.toNat]).getD X.toNat 0, ?_, ?_, hne⟩))
  · exact List.getElem?_eq_getElem hlt
  · have hlen : (board[Y.toNat]).length = COLS := hwf.2 _ (List.getElem_mem _)
    have hXlt : X.toNat < (board[Y.toNat]).length := by
      rw [hlen]
      have : X < (COLS : Int) := by
        by_contra hc
        exact hb (Or.inr (Or.inr (not_lt.mp hc)))
      omega
    rw [List.getD_eq_getElem?_getD, List.getElem?_eq_getElem hXlt]
    rfl

theorem collideRow_spec {board : Board} (hwf : BoardWF board) (piece : Piece) (y : Nat) :
    ∀ (cells : List Int) (x0 : Nat),
      (∀ (i : Nat) (v : Int), cells[i]? = some v → v ≠ 0 → 0 ≤ piece.y + (y : Int)) →
      (collideRow board piece y x0 cells = .ok true ∧ RowCollides board piece y x0 cells) ∨
      (collideRow board piece y x0 cells = .ok false ∧ ¬ RowCollides board piece y x0 cells) := by
  intro cells
  induction cells with
  | nil =>
    intro x0 _
    right
    refine ⟨rfl, ?_⟩
    rintro ⟨i, v, hv, _⟩
    simp at hv
  | cons value rest ih =>
    intro x0 hY
    have hrest : ∀ (i : Nat) (v : Int), rest[i]? = some v → v ≠ 0 → 0 ≤ piece.y + (y : Int) :=
      fun i v hv hne => hY (i + 1) v (by simpa using hv) hne
    have shift : RowCollides board piece y (x0 + 1) rest → RowCollides board piece y x0 (value :: rest) := by
      rintro ⟨i, v, hv, hne, hb⟩
      refine ⟨i + 1, v, by simpa using hv, hne, ?_⟩
      have : x0 + (i + 1) = x0 + 1 + i := by omega
      rw [this]
      exact hb
    have unshift : RowCollides board piece y x0 (value :: rest) →
        (value ≠ 0 ∧ Blocked board (piece.x + (x0 : Int)) (piece.y + (y : Int))) ∨
          RowCollides board piece y (x0 + 1) rest := by
      rintro ⟨i, v, hv, hne, hb⟩
      cases i with
      | zero =>
        left
        simp at hv
        subst hv
        exact ⟨hne, by simpa using hb⟩
      | succ j =>
        right
        refine ⟨j, v, by simpa using hv, hne, ?_⟩
        have : x0 + 1 + j = x0 + (j + 1) := by omega
        rw [this]
        exact hb
    by_cases hval : value ≠ 0
    · have h0 : 0 ≤ piece.y + (y : Int) := hY 0 value (by simp) hval
      have h0c : 0 ≤ (y : Int) + piece.y := by omega
      by_cases hb : Blocked board (piece.x + (x0 : Int)) (piece.y + (y : Int))
      · left
        have hh : hit board ((x0 : Int) + piece.x) ((y : Int) + piece.y) = .ok true := by
          apply hit_blocked h0c
          rw [add_comm (x0 : Int), add_comm (y : Int)]
          exact hb
        refine ⟨?_, 0, value, by simp, hval, by simpa using hb⟩
        simp only [collideRow, if_pos hval, hh]
      · have hh : hit board ((x0 : Int) + piece.x) ((y : Int) + piece.y) = .ok false := by
          apply hit_free hwf h0c
          rw [add_comm (x0 : Int), add_comm (y : Int)]
          exact hb
        have hstep : collideRow board piece y x0 (value :: rest) =
            collideRow board piece y (x0 + 1) rest := by
          simp only [collideRow, if_pos hval, hh]
        rw [hstep]
        rcases ih (x0 + 1) hrest with ⟨h1, h2⟩ | ⟨h1, h2⟩
        · exact Or.inl ⟨h1, shift h2⟩
        · refine Or.inr ⟨h1, fun hc => ?_⟩
          rcases unshift hc with ⟨_, hb2⟩ | hc2
          · exact hb hb2
          · exact h2 hc2
    · have hstep : collideRow board piece y x0 (value :: rest) =
          collideRow board piece y (x0 + 1) rest := by
        simp only [collideRow, if_neg hval]
      rw [hstep]
      rcases ih (x0 + 1) hrest with ⟨h1, h2⟩ | ⟨h1, h2⟩
      · exact Or.inl ⟨h1, shift h2⟩
      · refine Or.inr ⟨h1, fun hc => ?_⟩
        rcases unshift hc with ⟨hv2, _⟩ | hc2
        · exact hval hv2
        · exact h2 hc2

theorem collideFrom_spec {board : Board} (hwf : BoardWF board) (piece : Piece) :
    ∀ (rows : Matrix) (y0 : Nat),
      (∀ (j : Nat) (cells : List Int) (i : Nat) (v : Int),
        rows[j]? = some cells → cells[i]? = some v → v ≠ 0 →
        0 ≤ piece.y + ((y0 + j : Nat) : Int)) →
      (collideFrom board piece y0 rows = .ok true ∧ RowsCollide board piece y0 rows) ∨
      (collideFrom board piece y0 rows = .ok false ∧ ¬ RowsCollide board piece y0 rows) := by
  intro rows
  induction rows with
  | nil =>
    intro y0 _
    right
    refine ⟨rfl, ?_⟩
    rintro ⟨j, cells, hc, _⟩
    simp at hc
  | cons row rest ih =>
    intro y0 hY
    have hrest : ∀ (j : Nat) (cells : List Int) (i : Nat) (v : Int),
        rest[j]? = some cells → cells[i]? = some v → v ≠ 0 →
        0 ≤ piece.y + ((y0 + 1 + j : Nat) : Int) := by
      intro j cells i v hc hv hne
      have := hY (j + 1) cells i v (by simpa using hc) hv hne
      have e : y0 + 1 + j = y0 + (j + 1) := by omega
      rw [e]
      exact this
    have shift : RowsCollide board piece (y0 + 1) rest → RowsCollide board piece y0 (row :: rest) := by
      rintro ⟨j, cells, hc, hr⟩
      refine ⟨j + 1, cells, by simpa using hc, ?_⟩
      have e : y0 + (j + 1) = y0 + 1 + j := by omega
      rw [e]
      exact hr
    have unshift : RowsCollide board piece y0 (row :: rest) →
        RowCollides board piece y0 0 row ∨ RowsCollide board piece (y0 + 1) rest := by
      rintro ⟨j, cells, hc, hr⟩
      cases j with
      | zero =>
        left
        simp at hc
        subst hc
        simpa using hr
      | succ k =>
        right
        refine ⟨k, cells, by simpa using hc, ?_⟩
        have e : y0 + 1 + k = y0 + (k + 1) := by omega
        rw [e]
        exact hr
    have hrow : ∀ (i : Nat) (v : Int), row[i]? = some v → v ≠ 0 → 0 ≤ piece.y + (y0 : Int) := by
      intro i v hv hne
      simpa using hY 0 row i v (by simp) hv hne
    rcases collideRow_spec hwf piece y0 row 0 hrow with ⟨h1, h2⟩ | ⟨h1, h2⟩
    · left
      refine ⟨?_, 0, row, by simp, by simpa using h2⟩
      simp only [collideFrom, h1]
    · have hstep : collideFrom board piece y0 (row :: rest) =
          collideFrom board piece (y0 + 1) rest := by
        simp only [collideFrom, h1]
      rw [hstep]
      rcases ih (y0 + 1) hrest with ⟨h3, h4⟩ | ⟨h3, h4⟩
      · exact Or.inl ⟨h3, shift h4⟩
      · refine Or.inr ⟨h3, fun hc => ?_⟩
        rcases unshift hc with hc1 | hc2
        · exact h2 hc1
        · exact h4 hc2

theorem rowsCollide_iff (board : Board) (piece : Piece) :
    RowsCollide board piece 0 piece.shape ↔ Collides board piece := by
  constructor
  · rintro ⟨j, cells, hc, i, v, hv, hne, hb⟩
    refine ⟨j, i, ⟨cells, v, hc, hv, hne⟩, ?_⟩
    simpa using hb
  · rintro ⟨r, c, ⟨cells, v, hc, hv, hne⟩, hb⟩
    exact ⟨r, cells, hc, c, v, hv, hne, by simpa using hb⟩

theorem collide_spec {board : Board} (hwf : BoardWF board) {piece : Piece}
    (hrows : RowsNonneg piece) :
    (collide board piece = .ok true ∧ Collides board piece) ∨
      (collide board piece = .ok false ∧ ¬ Collides board piece) := by
  have h := collideFrom_spec hwf piece piece.shape 0 (by
    intro j cells i v hc hv hne
    simpa using hrows j i ⟨cells, v, hc, hv, hne⟩)
  rw [rowsCollide_iff] at h
  exact h

theorem not_nonzeroAt_emptyBoard (row col : Int) : ¬ NonzeroAt emptyBoard row col := by
  rintro ⟨_, _, cells, v, hc, hv, hne⟩
  have hmem : cells ∈ emptyBoard := List.getElem?_mem hc
  have hcells : cells = List.replicate COLS 0 := List.eq_of_mem_replicate hmem
  subst hcells
  have hvm : v ∈ List.replicate COLS (0 : Int) := List.getElem?_mem hv
  exact hne (List.eq_of_mem_replicate hvm)

/-- C1, as stated, fails: on the empty 20 x 10 board the O shape at `x = 3`, `y = -1` has
no occupied cell that is left of column 0, right of the last column, below the last row or
on a nonzero board cell, yet `collide` does not return `false`: the lookup `board[-1]` is
`undefined` and indexing it throws. -/
theorem collide_above_board_throws :
    BoardWF emptyBoard ∧
      ¬ Collides emptyBoard ⟨[[1, 1], [1, 1]], 3, -1, "yellow"⟩ ∧
      collide emptyBoard ⟨[[1, 1], [1, 1]], 3, -1, "yellow"⟩ = .error .typeError := by
  refine ⟨by decide, ?_, by decide⟩
  rintro ⟨r, c, ⟨cells, v, hc, hv, _⟩, hb⟩
  have hr : r < 2 := by
    have := (List.getElem?_eq_some_iff.mp hc).1
    simpa using this
  have hcl : cells.length = 2 := by
    have hmem : cells ∈ ([[1, 1], [1, 1]] : Matrix) := List.getElem?_mem hc
    simp at hmem
    subst hmem
    rfl
  have hcc : c < 2 := by
    have := (List.getElem?_eq_some_iff.mp hv).1
    omega
  rcases hb with hb | hb | hb | hb
  · simp only at hb
    omega
  · simp only [COLS] at hb
    omega
  · simp only [ROWS] at hb
    omega
  · exact not_nonzeroAt_emptyBoard _ _ hb

/-- C1, amended: for every board of 20 rows of 10 cells and every piece whose occupied
shape cells all map to board rows `>= 0`, `collide` returns `true` exactly when some
occupied shape cell `(r, c)` maps to a coordinate `(piece.x + c, piece.y + r)` whose
column is `< 0` or `>= COLS`, or whose row is `>= ROWS`, or which is a nonzero board
cell, and returns `false` exactly when there is no such cell. -/
theorem collide_iff_collides (board : Board) (piece : Piece) (hwf : BoardWF board)
    (hrows : RowsNonneg piece) :
    (collide board piece = .ok true ↔ Collides board piece) ∧
      (collide board piece = .ok false ↔ ¬ Collides board piece) := by
  rcases collide_spec hwf hrows with ⟨h1, h2⟩ | ⟨h1, h2⟩
  · refine ⟨⟨fun _ => h2, fun _ => h1⟩, ⟨fun h => ?_, fun h => absurd h2 h⟩⟩
    rw [h1] at h
    cases h
  · refine ⟨⟨fun h => ?_, fun h => absurd h h2⟩, ⟨fun _ => h2, fun _ => h1⟩⟩
    rw [h1] at h
    cases h

/-- The amended C1 at the O shape resting on the floor of the empty board. -/
theorem collide_iff_collides_witness :
    BoardWF emptyBoard ∧ RowsNonneg ⟨[[1, 1], [1, 1]], 3, 18, "yellow"⟩ ∧
      ((collide emptyBoard ⟨[[1, 1], [1, 1]], 3, 18, "yellow"⟩ = .ok true ↔
          Collides emptyBoard ⟨[[1, 1], [1, 1]], 3, 18, "yellow"⟩) ∧
        (collide emptyBoard ⟨[[1, 1], [1, 1]], 3, 18, "yellow"⟩ = .ok false ↔
          ¬ Collides emptyBoard ⟨[[1, 1], [1, 1]], 3, 18, "yellow"⟩)) :=
  have hrows : RowsNonneg ⟨[[1, 1], [1, 1]], 3, 18, "yellow"⟩ := by
    intro r c _
    show (0 : Int) ≤ 18 + (r : Int)
    omega
  ⟨by decide, hrows, collide_iff_collides emptyBoard _ (by decide) hrows⟩

/-! ## Sweep -/

theorem rowFull_eq_fullyNonzero {row : List Int} (h : row.length = COLS) :
    rowFull row = fullyNonzero row := by
  rw [Bool.eq_iff_iff]
  simp only [rowFull, fullyNonzero, List.all_eq_true, List.mem_range, bne_iff_ne, ne_eq]
  constructor
  · intro hx v hv
    obtain ⟨i, hi⟩ := List.mem_iff_getElem?.mp hv
    have hlt : i < row.length := (List.getElem?_eq_some_iff.mp hi).1
    have := hx i (h ▸ hlt)
    rw [List.getD_eq_getElem?_getD, hi] at this
    exact this
  · intro hv x hx
    have hlt : x < row.length := h ▸ hx
    rw [List.getD_eq_getElem?_getD, List.getElem?_eq_getElem hlt]
    exact hv _ (List.getElem_mem hlt)

theorem rowFull_zeros : rowFull (List.replicate COLS 0) = false := by decide

theorem sweepLoop_spec :
    ∀ (fuel : Nat) (board : Board) (n : Nat), n ≤ board.length →
      (board.take n).countP rowFull + n < fuel →
      sweepLoop fuel board ((n : Int) - 1) =
        .ok (List.replicate ((board.take n).countP rowFull) (List.replicate COLS 0) ++
          (board.take n).filter (fun row => !rowFull row) ++ board.drop n) := by
  intro fuel
  induction fuel with
  | zero => intro board n _ h; omega
  | succ fuel ih =>
    intro board n hn hfuel
    cases n with
    | zero => simp [sweepLoop]
    | succ m =>
      have hm : m < board.length := hn
      have hy : ((m + 1 : Nat) : Int) - 1 = (m : Int) := by push_cast; ring
      have htake : board.take (m + 1) = board.take m ++ [board[m]] := by
        rw [List.take_succ, List.getElem?_eq_getElem hm]
        rfl
      rw [hy]
      unfold sweepLoop
      rw [if_pos (by omega : (m : Int) ≥ 0), Int.toNat_natCast, List.getElem?_eq_getElem hm]
      simp only
      by_cases hfull : rowFull board[m] = true
      · rw [if_pos hfull]
        have hlen : (List.replicate COLS (0 : Int) :: board.eraseIdx m).length = board.length := by
          rw [List.length_cons, List.length_eraseIdx, if_pos hm]
          omega
        have htm : (board.eraseIdx m).take m = board.take m := by
          rw [List.eraseIdx_eq_take_drop_succ]
          exact List.take_left' (by rw [List.length_take]; omega)
        have hdm : (board.eraseIdx m).drop m = board.drop (m + 1) := by
          rw [List.eraseIdx_eq_take_drop_succ]
          exact List.drop_left' (by rw [List.length_take]; omega)
        have htake' : (List.replicate COLS (0 : Int) :: board.eraseIdx m).take (m + 1) =
            List.replicate COLS 0 :: board.take m := by
          rw [List.take_succ_cons, htm]
        have hcount : (board.take (m + 1)).countP rowFull = (board.take m).countP rowFull + 1 := by
          rw [htake, List.countP_append]
          simp [hfull]
        have hcall : (m : Int) + 1 - 1 = ((m + 1 : Nat) : Int) - 1 := by push_cast; ring
        rw [hcall, ih _ (m + 1) (by rw [hlen]; exact hn) (by
          rw [htake', List.countP_cons, rowFull_zeros]
          simp only [Bool.false_eq_true, if_false, add_zero]
          omega)]
        rw [htake', List.drop_succ_cons, hdm, hcount, List.countP_cons, rowFull_zeros,
          List.filter_cons, rowFull_zeros, htake, List.filter_append]
        simp [hfull, List.replicate_succ']
      · rw [if_neg hfull]
        have hfull' : rowFull board[m] = false := by simpa using hfull
        have hcount : (board.take (m + 1)).countP rowFull = (board.take m).countP rowFull := by
          rw [htake, List.countP_append]
          simp [hfull']
        rw [ih board m (by omega) (by omega), hcount, htake, List.filter_append,
          List.drop_eq_getElem_cons hm]
        simp [hfull']

theorem sweep_spec {board : Board} (hwf : BoardWF board) : sweep board = .ok (sweptBoard board) := by
  have hlen : board.length = ROWS := hwf.1
  have hc : board.countP rowFull = board.countP fullyNonzero :=
    List.countP_congr fun row hrow => by rw [rowFull_eq_fullyNonzero (hwf.2 row hrow)]
  have hf : board.filter (fun row => !rowFull row) = board.filter (fun row => !fullyNonzero row) :=
    List.filter_congr fun row hrow => by rw [rowFull_eq_fullyNonzero (hwf.2 row hrow)]
  have h := sweepLoop_spec (2 * ROWS + 1) board ROWS (by omega) (by
    have := List.countP_le_length rowFull (l := board.take ROWS)
    rw [List.length_take] at this
    omega)
  rw [List.take_of_length_le (by omega), List.drop_of_length_le (by omega), hc, hf,
    List.append_nil] at h
  exact h

theorem sweptBoard_length (board : Board) : (sweptBoard board).length = board.length := by
  unfold sweptBoard
  rw [List.length_append, List.length_replicate, List.countP_eq_length_filter]
  have := List.length_eq_length_filter_add (l := board) fullyNonzero
  omega

theorem sweptBoard_no_full {board : Board} :
    ∀ row ∈ sweptBoard board, fullyNonzero row = false := by
  intro row hrow
  unfold sweptBoard at hrow
  rcases List.mem_append.mp hrow with h | h
  · rw [List.eq_of_mem_replicate h]
    decide
  · simpa using (List.mem_filter.mp h).2

theorem sweptBoard_wf {board : Board} (hwf : BoardWF board) : BoardWF (sweptBoard board) := by
  refine ⟨by rw [sweptBoard_length, hwf.1], fun row hrow => ?_⟩
  unfold sweptBoard at hrow
  rcases List.mem_append.mp hrow with h | h
  · rw [List.eq_of_mem_replicate h, List.length_replicate]
  · exact hwf.2 row (List.mem_filter.mp h).1

/-- C2: for every board of `ROWS` rows and `COLS` columns with `k` fully-nonzero rows,
`sweep` returns the board made of `k` all-zero rows followed by the non-full rows in their
original order (`sweptBoard`); it has `ROWS` rows, none of them fully nonzero. -/
theorem sweep_removes_full_rows (board : Board) (hwf : BoardWF board) :
    sweep board = .ok (sweptBoard board) ∧
      (sweptBoard board).length = ROWS ∧
      ∀ row ∈ sweptBoard board, fullyNonzero row = false :=
  ⟨sweep_spec hwf, (sweptBoard_length board).trans hwf.1, sweptBoard_no_full⟩

/-- C2 at a board whose two lowest rows are full, below a row with one gap. -/
theorem sweep_removes_full_rows_witness :
    BoardWF (List.replicate 17 (List.replicate 10 0) ++
        [[1, 1, 1, 0, 1, 1, 1, 1, 1, 1], List.replicate 10 2, List.replicate 10 3]) ∧
      (sweep (List.replicate 17 (List.replicate 10 0) ++
          [[1, 1, 1, 0, 1, 1, 1, 1, 1, 1], List.replicate 10 2, List.replicate 10 3]) =
          .ok (sweptBoard (List.replicate 17 (List.replicate 10 0) ++
            [[1, 1, 1, 0, 1, 1, 1, 1, 1, 1], List.replicate 10 2, List.replicate 10 3])) ∧
        (sweptBoard (List.replicate 17 (List.replicate 10 0) ++
          [[1, 1, 1, 0, 1, 1, 1, 1, 1, 1], List.replicate 10 2, List.replicate 10 3])).length
            = ROWS ∧
        ∀ row ∈ sweptBoard (List.replicate 17 (List.replicate 10 0) ++
          [[1, 1, 1, 0, 1, 1, 1, 1, 1, 1], List.replicate 10 2, List.replicate 10 3]),
          fullyNonzero row = false) :=
  ⟨by decide, sweep_removes_full_rows _ (by decide)⟩

/-! ## Merge -/

theorem assign_inside {row : List Int} {X : Int} (h0 : 0 ≤ X) (hlt : X.toNat < row.length)
    (v : Int) : assign row X v = row.set X.toNat v := by
  unfold assign
  rw [if_neg (not_lt.mpr h0), if_pos hlt]

theorem wf_write {board : Board} (hwf : BoardWF board) {X Y : Int} (hin : InGrid Y X)
    {row : List Int} (hrow : board[Y.toNat]? = some row) (v : Int) :
    BoardWF (board.set Y.toNat (assign row X v)) := by
  obtain ⟨_, _, hX0, hX⟩ := hin
  have hlen : row.length = COLS := hwf.2 row (List.getElem?_mem hrow)
  refine ⟨by rw [List.length_set]; exact hwf.1, fun r hr => ?_⟩
  rcases List.mem_or_eq_of_mem_set hr with h | h
  · exact hwf.2 r h
  · rw [h, assign_inside hX0 (by omega), List.length_set, hlen]

theorem cellAt_write {board : Board} (hwf : BoardWF board) {X Y : Int} (hin : InGrid Y X)
    {row : List Int} (hrow : board[Y.toNat]? = some row) (v : Int) (R C : Int) :
    cellAt (board.set Y.toNat (assign row X v)) R C =
      if R = Y ∧ C = X then some v else cellAt board R C := by
  obtain ⟨hY0, hY, hX0, hX⟩ := hin
  have hlen : row.length = COLS := hwf.2 row (List.getElem?_mem hrow)
  have hYlt : Y.toNat < board.length := (List.getElem?_eq_some_iff.mp hrow).1
  have hXlt : X.toNat < row.length := by omega
  rw [assign_inside hX0 hXlt]
  unfold cellAt
  by_cases hRC : 0 ≤ R ∧ 0 ≤ C
  · rw [if_pos hRC, if_pos hRC, List.getElem?_set]
    by_cases hR : Y.toNat = R.toNat
    · have hRY : R = Y := by omega
      rw [if_pos hR, if_pos hYlt, Option.some_bind, List.getElem?_set]
      by_cases hC : X.toNat = C.toNat
      · have hCX : C = X := by omega
        rw [if_pos hC, if_pos hXlt, if_pos ⟨hRY, hCX⟩]
      · have hCX : ¬ C = X := fun h => hC (by rw [h])
        rw [if_neg hC, if_neg (fun h => hCX h.2), ← hR, hrow, Option.some_bind]
    · have hRY : ¬ R = Y := fun h => hR (by rw [h])
      rw [if_neg hR, if_neg (fun h => hRY h.1)]
  · rw [if_neg hRC, if_neg hRC, if_neg]
    rintro ⟨h1, h2⟩
    exact hRC ⟨h1 ▸ hY0, h2 ▸ hX0⟩

theorem rowTarget_cons (piece : Piece) (y x0 : Nat) (value : Int) (rest : List Int) (R C : Int) :
    RowTarget piece y x0 (value :: rest) R C ↔
      (value ≠ 0 ∧ R = (y : Int) + piece.y ∧ C = (x0 : Int) + piece.x) ∨
        RowTarget piece y (x0 + 1) rest R C := by
  constructor
  · rintro ⟨i, v, hv, hne, hR, hC⟩
    cases i with
    | zero =>
      simp at hv
      subst hv
      exact Or.inl ⟨hne, hR, by simpa using hC⟩
    | succ k =>
      refine Or.inr ⟨k, v, by simpa using hv, hne, hR, ?_⟩
      rw [hC]
      push_cast
      ring
  · rintro (⟨hne, hR, hC⟩ | ⟨i, v, hv, hne, hR, hC⟩)
    · exact ⟨0, value, by simp, hne, hR, by simpa using hC⟩
    · refine ⟨i + 1, v, by simpa using hv, hne, hR, ?_⟩
      rw [hC]
      push_cast
      ring

theorem rowsTarget_cons (piece : Piece) (y0 : Nat) (row : List Int) (rest : Matrix) (R C : Int) :
    RowsTarget piece y0 (row :: rest) R C ↔
      RowTarget piece y0 0 row R C ∨ RowsTarget piece (y0 + 1) rest R C := by
  constructor
  · rintro ⟨j, cells, hc, ht⟩
    cases j with
    | zero =>
      simp at hc
      subst hc
      exact Or.inl (by simpa using ht)
    | succ k =>
      refine Or.inr ⟨k, cells, by simpa using hc, ?_⟩
      have e : y0 + 1 + k = y0 + (k + 1) := by omega
      rw [e]
      exact ht
  · rintro (ht | ⟨j, cells, hc, ht⟩)
    · exact ⟨0, row, by simp, by simpa using ht⟩
    · refine ⟨j + 1, cells, by simpa using hc, ?_⟩
      have e : y0 + (j + 1) = y0 + 1 + j := by omega
      rw [e]
      exact ht

theorem mergeRow_spec (piece : Piece) (y : Nat) :
    ∀ (cells : List Int) (x0 : Nat) (board : Board), BoardWF board →
      (∀ R C, RowTarget piece y x0 cells R C → InGrid R C) →
      ∃ merged, mergeRow piece y x0 cells board = .ok merged ∧ BoardWF merged ∧
        ∀ R C, (RowTarget piece y x0 cells R C →
            cellAt merged R C = some (indexOf piece.color + 1)) ∧
          (¬ RowTarget piece y x0 cells R C → cellAt merged R C = cellAt board R C) := by
  intro cells
  induction cells with
  | nil =>
    intro x0 board hwf _
    refine ⟨board, rfl, hwf, fun R C => ⟨?_, fun _ => rfl⟩⟩
    rintro ⟨i, v, hv, _⟩
    simp at hv
  | cons value rest ih =>
    intro x0 board hwf hin
    have hin' : ∀ R C, RowTarget piece y (x0 + 1) rest R C → InGrid R C :=
      fun R C h => hin R C ((rowTarget_cons piece y x0 value rest R C).mpr (Or.inr h))
    by_cases hval : value ≠ 0
    · have hg : InGrid ((y : Int) + piece.y) ((x0 : Int) + piece.x) :=
        hin _ _ ((rowTarget_cons piece y x0 value rest _ _).mpr (Or.inl ⟨hval, rfl, rfl⟩))
      have hYlt : ((y : Int) + piece.y).toNat < board.length := by
        have h0 := hg.1
        have h1 := hg.2.1
        rw [hwf.1]
        omega
      have hrow := List.getElem?_eq_getElem hYlt
      obtain ⟨merged, hm, hwfm, hcells⟩ := ih (x0 + 1) _
        (wf_write hwf hg hrow (indexOf piece.color + 1)) hin'
      refine ⟨merged, ?_, hwfm, fun R C => ?_⟩
      · simp only [mergeRow, if_pos hval, if_neg (not_lt.mpr hg.1), hrow]
        exact hm
      · rw [rowTarget_cons]
        constructor
        · intro h
          by_cases ht : RowTarget piece y (x0 + 1) rest R C
          · exact (hcells R C).1 ht
          · rw [(hcells R C).2 ht, cellAt_write hwf hg hrow]
            rcases h with ⟨_, hR, hC⟩ | h
            · rw [if_pos ⟨hR, hC⟩]
            · exact absurd h ht
        · intro h
          have ht : ¬ RowTarget piece y (x0 + 1) rest R C := fun ht => h (Or.inr ht)
          rw [(hcells R C).2 ht, cellAt_write hwf hg hrow, if_neg]
          rintro ⟨hR, hC⟩
          exact h (Or.inl ⟨hval, hR, hC⟩)
    · obtain ⟨merged, hm, hwfm, hcells⟩ := ih (x0 + 1) board hwf hin'
      refine ⟨merged, ?_, hwfm, fun R C => ?_⟩
      · simp only [mergeRow, if_neg hval]
        exact hm
      · rw [rowTarget_cons]
        constructor
        · rintro (⟨h, _⟩ | h)
          · exact absurd h hval
          · exact (hcells R C).1 h
        · intro h
          exact (hcells R C).2 fun ht => h (Or.inr ht)

theorem mergeFrom_spec (piece : Piece) :
    ∀ (rows : Matrix) (y0 : Nat) (board : Board), BoardWF board →
      (∀ R C, RowsTarget piece y0 rows R C → InGrid R C) →
      ∃ merged, mergeFrom piece y0 rows board = .ok merged ∧ BoardWF merged ∧
        ∀ R C, (RowsTarget piece y0 rows R C →
            cellAt merged R C = some (indexOf piece.color + 1)) ∧
          (¬ RowsTarget piece y0 rows R C → cellAt merged R C = cellAt board R C) := by
  intro rows
  induction rows with
  | nil =>
    intro y0 board hwf _
    refine ⟨board, rfl, hwf, fun R C => ⟨?_, fun _ => rfl⟩⟩
    rintro ⟨j, cells, hc, _⟩
    simp at hc
  | cons row rest ih =>
    intro y0 board hwf hin
    obtain ⟨b1, hb1, hwf1, hc1⟩ := mergeRow_spec piece y0 row 0 board hwf
      (fun R C h => hin R C ((rowsTarget_cons piece y0 row rest R C).mpr (Or.inl h)))
    obtain ⟨merged, hm, hwfm, hcells⟩ := ih (y0 + 1) b1 hwf1
      (fun R C h => hin R C ((rowsTarget_cons piece y0 row rest R C).mpr (Or.inr h)))
    refine ⟨merged, ?_, hwfm, fun R C => ?_⟩
    · simp only [mergeFrom, hb1]
      exact hm
    · rw [rowsTarget_cons]
      constructor
      · intro h
        by_cases ht : RowsTarget piece (y0 + 1) rest R C
        · exact (hcells R C).1 ht
        · rw [(hcells R C).2 ht]
          rcases h with h | h
          · exact (hc1 R C).1 h
          · exact absurd h ht
      · intro h
        rw [(hcells R C).2 fun ht => h (Or.inr ht)]
        exact (hc1 R C).2 fun ht => h (Or.inl ht)

theorem rowsTarget_iff_under (piece : Piece) (R C : Int) :
    RowsTarget piece 0 piece.shape R C ↔ Under piece R C := by
  constructor
  · rintro ⟨j, cells, hc, i, v, hv, hne, hR, hC⟩
    refine ⟨j, i, ⟨cells, v, hc, hv, hne⟩, ?_, ?_⟩
    · rw [hR]; push_cast; ring
    · rw [hC]; push_cast; ring
  · rintro ⟨r, c, ⟨cells, v, hc, hv, hne⟩, hR, hC⟩
    refine ⟨r, cells, hc, c, v, hv, hne, ?_, ?_⟩
    · rw [hR]; push_cast; ring
    · rw [hC]; push_cast; ring

theorem merge_spec {board : Board} (hwf : BoardWF board) {piece : Piece}
    (hin : ∀ R C, Under piece R C → InGrid R C) :
    ∃ merged, merge board piece = .ok merged ∧ BoardWF merged ∧
      ∀ R C, (Under piece R C → cellAt merged R C = some (indexOf piece.color + 1)) ∧
        (¬ Under piece R C → cellAt merged R C = cellAt board R C) := by
  obtain ⟨merged, hm, hwfm, hcells⟩ := mergeFrom_spec piece piece.shape 0 board hwf
    (fun R C h => hin R C ((rowsTarget_iff_under piece R C).mp h))
  refine ⟨merged, hm, hwfm, fun R C => ?_⟩
  rw [← rowsTarget_iff_under]
  exact hcells R C

theorem indexOf_catalog : ∀ i : Fin 7, indexOf (COLORS.getD i.val "") = (i.val : Int) := by
  decide

theorem indexOf_of_catalog {i : Nat} {color : String} (h : COLORS[i]? = some color) :
    indexOf color = (i : Int) := by
  have hi : i < 7 := (List.getElem?_eq_some_iff.mp h).1
  have := indexOf_catalog ⟨i, hi⟩
  rw [List.getD_eq_getElem?_getD] at this
  simp only [h, Option.getD_some] at this
  exact this

theorem occupied_O {r c : Nat} (h : Occupied [[1, 1], [1, 1]] r c) : r < 2 ∧ c < 2 := by
  obtain ⟨cells, v, hc, hv, _⟩ := h
  have hr : r < 2 := by
    have := (List.getElem?_eq_some_iff.mp hc).1
    simpa using this
  have hcl : cells.length = 2 := by
    have hmem : cells ∈ ([[1, 1], [1, 1]] : Matrix) := List.getElem?_mem hc
    simp at hmem
    subst hmem
    rfl
  have hcc : c < 2 := by
    have := (List.getElem?_eq_some_iff.mp hv).1
    omega
  exact ⟨hr, hcc⟩

/-- C3: for every 20 x 10 board and every piece whose color is the catalog color at index
`i` and whose occupied shape cells all lie inside the board, `merge` returns a board in
which every cell `(piece.y + r, piece.x + c)` under an occupied shape cell `(r, c)` holds
`i + 1`, which is nonzero. -/
theorem merge_writes_catalog_index (board : Board) (piece : Piece) (i : Nat)
    (hwf : BoardWF board) (hcolor : COLORS[i]? = some piece.color)
    (hin : ∀ r c : Nat, Occupied piece.shape r c →
      InGrid (piece.y + (r : Int)) (piece.x + (c : Int))) :
    ∃ merged, merge board piece = .ok merged ∧
      ∀ r c : Nat, Occupied piece.shape r c →
        cellAt merged (piece.y + (r : Int)) (piece.x + (c : Int)) = some ((i : Int) + 1) ∧
          (i : Int) + 1 ≠ 0 := by
  obtain ⟨merged, hm, _, hcells⟩ := @merge_spec board hwf piece (by
    rintro R C ⟨r, c, hocc, hR, hC⟩
    rw [hR, hC]
    exact hin r c hocc)
  refine ⟨merged, hm, fun r c hocc => ⟨?_, by omega⟩⟩
  rw [(hcells _ _).1 ⟨r, c, hocc, rfl, rfl⟩, indexOf_of_catalog hcolor]

/-- C3 at the yellow O shape resting on the floor of the empty board. -/
theorem merge_writes_catalog_index_witness :
    BoardWF emptyBoard ∧ COLORS[3]? = some "yellow" ∧
      (∀ r c : Nat, Occupied [[1, 1], [1, 1]] r c → InGrid (18 + (r : Int)) (3 + (c : Int))) ∧
      ∃ merged, merge emptyBoard ⟨[[1, 1], [1, 1]], 3, 18, "yellow"⟩ = .ok merged ∧
        ∀ r c : Nat, Occupied [[1, 1], [1, 1]] r c →
          cellAt merged (18 + (r : Int)) (3 + (c : Int)) = some (((3 : Nat) : Int) + 1) ∧
            ((3 : Nat) : Int) + 1 ≠ 0 :=
  have hin : ∀ r c : Nat, Occupied [[1, 1], [1, 1]] r c →
      InGrid (18 + (r : Int)) (3 + (c : Int)) := by
    intro r c h
    obtain ⟨hr, hc⟩ := occupied_O h
    simp only [InGrid, ROWS, COLS]
    omega
  ⟨by decide, by decide, hin,
    merge_writes_catalog_index emptyBoard ⟨[[1, 1], [1, 1]], 3, 18, "yellow"⟩ 3
      (by decide) (by decide) hin⟩

theorem hit_false {board : Board} {X Y : Int} (h : hit board X Y = .ok false) :
    InGrid Y X ∧ ∃ row, board[Y.toNat]? = some row ∧ row.getD X.toNat 0 = 0 := by
  unfold hit at h
  by_cases hb : Y ≥ (ROWS : Int) ∨ X < 0 ∨ X ≥ (COLS : Int)
  · rw [if_pos hb] at h
    cases h
  · rw [if_neg hb] at h
    by_cases hY : Y < 0
    · rw [if_pos hY] at h
      cases h
    · rw [if_neg hY] at h
      have hgrid : InGrid Y X := by
        refine ⟨by omega, ?_, ?_, ?_⟩
        · by_contra hc
          exact hb (Or.inl (not_lt.mp hc))
        · by_contra hc
          exact hb (Or.inr (Or.inl (not_le.mp hc)))
        · by_contra hc
          exact hb (Or.inr (Or.inr (not_lt.mp hc)))
      cases hrow : board[Y.toNat]? with
      | none =>
        rw [hrow] at h
        cases h
      | some row =>
        rw [hrow] at h
        refine ⟨hgrid, row, rfl, ?_⟩
        simpa using h

theorem collideRow_false {board : Board} {piece : Piece} {y : Nat} :
    ∀ (cells : List Int) (x0 : Nat), collideRow board piece y x0 cells = .ok false →
      ∀ (i : Nat) (v : Int), cells[i]? = some v → v ≠ 0 →
        hit board (((x0 + i : Nat) : Int) + piece.x) ((y : Int) + piece.y) = .ok false := by
  intro cells
  induction cells with
  | nil =>
    intro x0 _ i v hv
    simp at hv
  | cons value rest ih =>
    intro x0 h i v hv hne
    have tail : collideRow board piece y (x0 + 1) rest = .ok false →
        hit board (((x0 + i : Nat) : Int) + piece.x) ((y : Int) + piece.y) = .ok false ∨ i = 0 := by
      intro hrest
      cases i with
      | zero => exact Or.inr rfl
      | succ k =>
        left
        have := ih (x0 + 1) hrest k v (by simpa using hv) hne
        have e : x0 + (k + 1) = x0 + 1 + k := by omega
        rw [e]
        exact this
    by_cases hval : value ≠ 0
    · cases hh : hit board ((x0 : Int) + piece.x) ((y : Int) + piece.y) with
      | error e =>
        simp only [collideRow, if_pos hval, hh] at h
        cases h
      | ok b =>
        cases b with
        | true =>
          simp only [collideRow, if_pos hval, hh] at h
          cases h
        | false =>
          simp only [collideRow, if_pos hval, hh] at h
          rcases tail h with h1 | h1
          · exact h1
          · subst h1
            simpa using hh
    · simp only [collideRow, if_neg hval] at h
      rcases tail h with h1 | h1
      · exact h1
      · subst h1
        simp at hv
        exact absurd (hv ▸ hne) hval

theorem collideFrom_false {board : Board} {piece : Piece} :
    ∀ (rows : Matrix) (y0 : Nat), collideFrom board piece y0 rows = .ok false →
      ∀ (j : Nat) (cells : List Int) (i : Nat) (v : Int),
        rows[j]? = some cells → cells[i]? = some v → v ≠ 0 →
        hit board ((i : Int) + piece.x) (((y0 + j : Nat) : Int) + piece.y) = .ok false := by
  intro rows
  induction rows with
  | nil =>
    intro y0 _ j cells i v hc
    simp at hc
  | cons row rest ih =>
    intro y0 h j cells i v hc hv hne
    cases hh : collideRow board piece y0 0 row with
    | error e =>
      simp only [collideFrom, hh] at h
      cases h
    | ok b =>
      cases b with
      | true =>
        simp only [collideFrom, hh] at h
        cases h
      | false =>
        simp only [collideFrom, hh] at h
        cases j with
        | zero =>
          simp at hc
          subst hc
          simpa using collideRow_false row 0 hh i v hv hne
        | succ k =>
          have := ih (y0 + 1) h k cells i v (by simpa using hc) hv hne
          have e : y0 + (k + 1) = y0 + 1 + k := by omega
          rw [e]
          exact this

theorem collide_false_hit {board : Board} {piece : Piece} (h : collide board piece = .ok false)
    {R C : Int} (hu : Under piece R C) : hit board C R = .ok false := by
  obtain ⟨r, c, ⟨cells, v, hc, hv, hne⟩, hR, hC⟩ := hu
  have := collideFrom_false piece.shape 0 h r cells c v hc hv hne
  rw [hR, hC, add_comm piece.x, add_comm piece.y]
  simpa using this

theorem collide_false_inGrid {board : Board} {piece : Piece}
    (h : collide board piece = .ok false) : ∀ R C, Under piece R C → InGrid R C :=
  fun _ _ hu => (hit_false (collide_false_hit h hu)).1

/-- C4: for every 20 x 10 board and every piece for which `collide` returns `false`,
`merge` returns a board that differs from the given one only at cells under occupied shape
cells: every other cell keeps its value, every cell that was nonzero is unchanged, and the
board still has `ROWS` rows of `COLS` cells. -/
theorem merge_changes_only_piece_cells (board : Board) (piece : Piece) (hwf : BoardWF board)
    (hfree : collide board piece = .ok false) :
    ∃ merged, merge board piece = .ok merged ∧
      (∀ R C : Int, ¬ Under piece R C → cellAt merged R C = cellAt board R C) ∧
      (∀ (R C v : Int), cellAt board R C = some v → v ≠ 0 → cellAt merged R C = some v) ∧
      BoardWF merged := by
  obtain ⟨merged, hm, hwfm, hcells⟩ := merge_spec hwf (collide_false_inGrid hfree)
  refine ⟨merged, hm, fun R C hu => (hcells R C).2 hu, fun R C v hv hne => ?_, hwfm⟩
  have hnu : ¬ Under piece R C := by
    intro hu
    obtain ⟨hg, row, hrow, hzero⟩ := hit_false (collide_false_hit hfree hu)
    unfold cellAt at hv
    rw [if_pos ⟨hg.1, hg.2.2.1⟩, hrow, Option.some_bind] at hv
    rw [List.getD_eq_getElem?_getD, hv] at hzero
    exact hne hzero
  rw [(hcells R C).2 hnu, hv]

/-- C4 at the yellow O shape resting on the floor of the empty board. -/
theorem merge_changes_only_piece_cells_witness :
    BoardWF emptyBoard ∧ collide emptyBoard ⟨[[1, 1], [1, 1]], 3, 18, "yellow"⟩ = .ok false ∧
      ∃ merged, merge emptyBoard ⟨[[1, 1], [1, 1]], 3, 18, "yellow"⟩ = .ok merged ∧
        (∀ R C : Int, ¬ Under ⟨[[1, 1], [1, 1]], 3, 18, "yellow"⟩ R C →
          cellAt merged R C = cellAt emptyBoard R C) ∧
        (∀ (R C v : Int), cellAt emptyBoard R C = some v → v ≠ 0 →
          cellAt merged R C = some v) ∧
        BoardWF merged :=
  ⟨by decide, by decide,
    merge_changes_only_piece_cells emptyBoard ⟨[[1, 1], [1, 1]], 3, 18, "yellow"⟩
      (by decide) (by decide)⟩

/-! ## Rotation -/

/-- C5: for each of the seven catalog shapes, four successive applications of `rotate`
give back the shape matrix. -/
theorem rotate_four_times_catalog :
    ∀ shape ∈ SHAPES, rotate (rotate (rotate (rotate shape))) = shape := by
  decide

/-- C5 at the S shape. -/
theorem rotate_four_times_catalog_witness :
    [[0, 1, 1], [1, 1, 0], [0, 0, 0]] ∈ SHAPES ∧
      rotate (rotate (rotate (rotate [[0, 1, 1], [1, 1, 0], [0, 0, 0]]))) =
        [[0, 1, 1], [1, 1, 0], [0, 0, 0]] :=
  ⟨by decide, rotate_four_times_catalog [[0, 1, 1], [1, 1, 0], [0, 0, 0]] (by decide)⟩

theorem put_square {N : Nat} {M : Matrix} (hM : Square N M) {x j : Nat} (hj : j < N)
    (v : Int) : Square N (put M x j v) := by
  refine ⟨by unfold put; rw [List.length_set]; exact hM.1, fun row hrow => ?_⟩
  unfold put at hrow
  rcases List.mem_or_eq_of_mem_set hrow with h | h
  · exact hM.2 row h
  · by_cases hx : x < M.length
    · have hlen : (M.getD x []).length = N := by
        rw [List.getD_eq_getElem?_getD, List.getElem?_eq_getElem hx]
        exact hM.2 _ (List.getElem_mem hx)
      rw [h, assign_inside (by omega) (by rw [Int.toNat_natCast, hlen]; exact hj),
        List.length_set, hlen]
    · rw [List.set_eq_of_length_le (by omega)] at hrow
      exact hM.2 row hrow

theorem entry_put {N : Nat} {M : Matrix} (hM : Square N M) {x j : Nat} (hx : x < N)
    (hj : j < N) (v : Int) (a b : Nat) :
    entry (put M x j v) a b = if a = x ∧ b = j then v else entry M a b := by
  have hxl : x < M.length := by rw [hM.1]; exact hx
  have hrow : M.getD x [] = M[x] := by
    rw [List.getD_eq_getElem?_getD, List.getElem?_eq_getElem hxl]
    rfl
  have hlen : (M[x]).length = N := hM.2 _ (List.getElem_mem hxl)
  unfold entry put
  rw [hrow, assign_inside (by omega) (by rw [Int.toNat_natCast, hlen]; exact hj),
    Int.toNat_natCast]
  simp only [List.getD_eq_getElem?_getD, List.getElem?_set]
  by_cases ha : x = a
  · subst ha
    rw [if_pos rfl, if_pos hxl, Option.getD_some, List.getElem?_set]
    by_cases hb : j = b
    · subst hb
      rw [if_pos rfl, if_pos (by omega), if_pos ⟨rfl, rfl⟩, Option.getD_some]
    · rw [if_neg hb, if_neg (fun h => hb h.2.symm), List.getElem?_eq_getElem hxl,
        Option.getD_some]
  · rw [if_neg ha, if_neg (fun h => ha h.1.symm)]

theorem rotate_inner {N : Nat} (f : Nat → Int) {j : Nat} (hj : j < N) :
    ∀ k, k ≤ N → ∀ M : Matrix, Square N M →
      Square N ((List.range k).foldl (fun result x => put result x j (f x)) M) ∧
        ∀ a b, entry ((List.range k).foldl (fun result x => put result x j (f x)) M) a b =
          if a < k ∧ b = j then f a else entry M a b := by
  intro k
  induction k with
  | zero =>
    intro _ M hM
    exact ⟨hM, fun a b => by simp⟩
  | succ k ih =>
    intro hk M hM
    obtain ⟨hsq, hent⟩ := ih (by omega) M hM
    rw [List.range_succ, List.foldl_append]
    refine ⟨put_square hsq hj _, fun a b => ?_⟩
    simp only [List.foldl_cons, List.foldl_nil]
    rw [entry_put hsq (by omega) hj, hent]
    by_cases h1 : a = k ∧ b = j
    · rw [if_pos h1, if_pos ⟨by omega, h1.2⟩, h1.1]
    · rw [if_neg h1]
      by_cases h2 : a < k ∧ b = j
      · rw [if_pos h2, if_pos ⟨by omega, h2.2⟩]
      · rw [if_neg h2, if_neg]
        rintro ⟨h3, h4⟩
        by_cases h5 : a = k
        · exact h1 ⟨h5, h4⟩
        · exact h2 ⟨by omega, h4⟩

theorem rotate_outer (m : Matrix) {N : Nat} :
    ∀ k, k ≤ N → ∀ M : Matrix, Square N M →
      Square N ((List.range k).foldl (fun result y =>
          (List.range N).foldl (fun result x =>
            put result x (N - 1 - y) (entry m y x)) result) M) ∧
        ∀ a b, a < N → b < N →
          entry ((List.range k).foldl (fun result y =>
            (List.range N).foldl (fun result x =>
              put result x (N - 1 - y) (entry m y x)) result) M) a b =
            if N - 1 - b < k then entry m (N - 1 - b) a else entry M a b := by
  intro k
  induction k with
  | zero =>
    intro _ M hM
    exact ⟨hM, fun a b _ _ => by simp⟩
  | succ k ih =>
    intro hk M hM
    obtain ⟨hsq, hent⟩ := ih (by omega) M hM
    rw [List.range_succ, List.foldl_append]
    simp only [List.foldl_cons, List.foldl_nil]
    obtain ⟨hsq2, hent2⟩ := rotate_inner (fun x => entry m k x) (by omega : N - 1 - k < N)
      N le_rfl _ hsq
    refine ⟨hsq2, fun a b ha hb => ?_⟩
    rw [hent2, hent a b ha hb]
    by_cases h1 : b = N - 1 - k
    · have e : N - 1 - b = k := by omega
      rw [if_pos ⟨ha, h1⟩, if_pos (by omega), e]
    · rw [if_neg (fun h => h1 h.2)]
      by_cases h2 : N - 1 - b < k
      · rw [if_pos h2, if_pos (by omega)]
      · rw [if_neg h2, if_neg (by omega)]

theorem rotate_spec {N : Nat} {m : Matrix} (hm : Square N m) :
    Square N (rotate m) ∧
      ∀ a b, a < N → b < N → entry (rotate m) a b = entry m (N - 1 - b) a := by
  have h := rotate_outer m N le_rfl m hm
  have hr : rotate m = (List.range N).foldl (fun result y =>
      (List.range N).foldl (fun result x =>
        put result x (N - 1 - y) (entry m y x)) result) m := by
    unfold rotate
    simp only [hm.1]
  rw [hr]
  refine ⟨h.1, fun a b ha hb => ?_⟩
  rw [h.2 a b ha hb, if_pos (by omega)]

theorem square_ext {N : Nat} {A B : Matrix} (hA : Square N A) (hB : Square N B)
    (h : ∀ a b, a < N → b < N → entry A a b = entry B a b) : A = B := by
  apply List.ext_getElem (by rw [hA.1, hB.1])
  intro a ha hb
  have haN : a < N := by rw [← hA.1]; exact ha
  have hla : (A[a]).length = N := hA.2 _ (List.getElem_mem ha)
  have hlb : (B[a]).length = N := hB.2 _ (List.getElem_mem hb)
  apply List.ext_getElem (by rw [hla, hlb])
  intro b hb1 hb2
  have := h a b haN (by rw [← hla]; exact hb1)
  unfold entry at this
  simp only [List.getD_eq_getElem?_getD, List.getElem?_eq_getElem ha,
    List.getElem?_eq_getElem hb, Option.getD_some, List.getElem?_eq_getElem hb1,
    List.getElem?_eq_getElem hb2] at this
  exact this

theorem quarterTurn_spec {N : Nat} {m : Matrix} (hm : Square N m) :
    Square N (quarterTurn m) ∧
      ∀ a b, a < N → b < N → entry (quarterTurn m) a b = entry m (N - 1 - b) a := by
  constructor
  · refine ⟨by simp [quarterTurn, transposeSquare, hm.1], fun row hrow => ?_⟩
    simp only [quarterTurn, transposeSquare, List.map_map, List.mem_map, List.mem_range,
      Function.comp] at hrow
    obtain ⟨i, _, hi⟩ := hrow
    rw [← hi]
    simp [hm.1]
  · intro a b ha hb
    have hlen : m.length = N := hm.1
    have e : N - 1 - b < N := by omega
    have hq : (quarterTurn m).getD a [] =
        ((List.range N).map fun j => entry m j a).reverse := by
      simp [quarterTurn, transposeSquare, hlen, List.getD_eq_getElem?_getD, ha]
    show ((quarterTurn m).getD a []).getD b 0 = _
    rw [hq, List.getD_eq_getElem?_getD, List.getElem?_reverse (by simpa using hb)]
    simp [List.getElem?_map, List.getElem?_range, e]

/-- C6: for every square `N` x `N` matrix `m`, `rotate m` is an `N` x `N` matrix whose
entry at row `x`, column `N - 1 - y` is `m[y][x]` for all `x, y < N`, and it equals
`quarterTurn m`, the transpose with each row reversed; every catalog shape is square. -/
theorem rotate_is_quarter_turn (m : Matrix) (N : Nat) (hm : Square N m) :
    Square N (rotate m) ∧
      (∀ x y, x < N → y < N → entry (rotate m) x (N - 1 - y) = entry m y x) ∧
      rotate m = quarterTurn m ∧
      ∀ shape ∈ SHAPES, Square shape.length shape := by
  obtain ⟨hsq, hent⟩ := rotate_spec hm
  obtain ⟨hsq2, hent2⟩ := quarterTurn_spec hm
  refine ⟨hsq, fun x y hx hy => ?_, ?_, by decide⟩
  · rw [hent x (N - 1 - y) hx (by omega)]
    have e : N - 1 - (N - 1 - y) = y := by omega
    rw [e]
  · exact square_ext hsq hsq2 fun a b ha hb => by rw [hent a b ha hb, hent2 a b ha hb]

/-- C6 at the T shape. -/
theorem rotate_is_quarter_turn_witness :
    Square 3 [[0, 1, 0], [1, 1, 1], [0, 0, 0]] ∧
      (Square 3 (rotate [[0, 1, 0], [1, 1, 1], [0, 0, 0]]) ∧
        (∀ x y, x < 3 → y < 3 →
          entry (rotate [[0, 1, 0], [1, 1, 1], [0, 0, 0]]) x (3 - 1 - y) =
            entry [[0, 1, 0], [1, 1, 1], [0, 0, 0]] y x) ∧
        rotate [[0, 1, 0], [1, 1, 1], [0, 0, 0]] =
          quarterTurn [[0, 1, 0], [1, 1, 1], [0, 0, 0]] ∧
        ∀ shape ∈ SHAPES, Square shape.length shape) :=
  ⟨by decide, rotate_is_quarter_turn [[0, 1, 0], [1, 1, 1], [0, 0, 0]] 3 (by decide)⟩

/-! ## Controller -/

theorem rowsNonneg_of_y {piece : Piece} (h : 0 ≤ piece.y) : RowsNonneg piece := by
  intro r c _
  omega

theorem rowsNonneg_of_free {board : Board} {piece : Piece}
    (h : collide board piece = .ok false) : RowsNonneg piece :=
  fun r c hocc => (collide_false_inGrid h _ _ ⟨r, c, hocc, rfl, rfl⟩).1

theorem collide_returns {board : Board} (hwf : BoardWF board) {piece : Piece}
    (hrows : RowsNonneg piece) :
    collide board piece = .ok true ∨ collide board piece = .ok false := by
  rcases collide_spec hwf hrows with h | h
  · exact Or.inl h.1
  · exact Or.inr h.1

theorem createPiece_fits : ∀ idx : Fin 7,
    (createPiece idx).y = 0 ∧ 0 ≤ (createPiece idx).x ∧
      (createPiece idx).shape.length ≤ ROWS ∧
      ∀ row ∈ (createPiece idx).shape, (createPiece idx).x + (row.length : Int) ≤ (COLS : Int) := by
  decide

theorem createPiece_inGrid (idx : Fin 7) :
    ∀ R C, Under (createPiece idx) R C → InGrid R C := by
  rintro R C ⟨r, c, ⟨cells, v, hc, hv, _⟩, hR, hC⟩
  obtain ⟨hy, hx, hlen, hrows⟩ := createPiece_fits idx
  have hr : r < (createPiece idx).shape.length := (List.getElem?_eq_some_iff.mp hc).1
  have hcl : c < cells.length := (List.getElem?_eq_some_iff.mp hv).1
  have hw := hrows cells (List.getElem?_mem hc)
  rw [hR, hC, hy]
  refine ⟨by omega, by omega, by omega, by omega⟩

theorem playerDrop_falls {idx : Fin 7} {s : State}
    (h : collide s.board { s.current with y := s.current.y + 1 } = .ok false) :
    playerDrop idx s =
      .ok { s with current := { s.current with y := s.current.y + 1 }, dropCounter := 0 } := by
  simp only [playerDrop, h]

theorem playerDrop_lands {idx : Fin 7} {s : State} {merged swept : Board} {c : Bool}
    (h : collide s.board { s.current with y := s.current.y + 1 } = .ok true)
    (hm : merge s.board s.current = .ok merged) (hs : sweep merged = .ok swept)
    (hc : collide swept (createPiece idx) = .ok c) :
    playerDrop idx s =
      .ok { board := swept, current := createPiece idx, dropCounter := 0,
            lastTime := s.lastTime, gameOver := if c then true else s.gameOver } := by
  simp only [playerDrop, h, hm, hs, hc]

/-- C7: for every state with a 20 x 10 board whose active piece does not collide,
`playerDrop` returns; if the piece one row down does not collide the result is the same
state with `y` increased by 1 and `dropCounter = 0`; otherwise the piece is merged at its
original position, `sweep` is applied to the merged board, and the result has that board, a
freshly created piece (at `y = 0`) and `dropCounter = 0`. -/
theorem playerDrop_falls_or_lands (idx : Fin 7) (s : State) (hwf : BoardWF s.board)
    (hfree : collide s.board s.current = .ok false) :
    (collide s.board { s.current with y := s.current.y + 1 } = .ok false ∧
        playerDrop idx s =
          .ok { board := s.board
                current := { shape := s.current.shape, x := s.current.x,
                             y := s.current.y + 1, color := s.current.color }
                dropCounter := 0
                lastTime := s.lastTime
                gameOver := s.gameOver }) ∨
      (collide s.board { s.current with y := s.current.y + 1 } = .ok true ∧
        ∃ merged swept s', merge s.board s.current = .ok merged ∧ sweep merged = .ok swept ∧
          playerDrop idx s = .ok s' ∧ s'.board = swept ∧ s'.current = createPiece idx ∧
          s'.current.y = 0 ∧ s'.dropCounter = 0) := by
  have hrows : RowsNonneg { s.current with y := s.current.y + 1 } := by
    intro r c hocc
    have := rowsNonneg_of_free hfree r c hocc
    show 0 ≤ s.current.y + 1 + (r : Int)
    omega
  rcases collide_returns hwf hrows with h | h
  · right
    obtain ⟨merged, hm, hwfm, _⟩ := merge_spec hwf (collide_false_inGrid hfree)
    have hs := sweep_spec hwfm
    rcases collide_returns (sweptBoard_wf hwfm)
      (rowsNonneg_of_y (le_of_eq (createPiece_fits idx).1.symm)) with hc | hc
    · exact ⟨h, merged, _, _, hm, hs, playerDrop_lands h hm hs hc, rfl, rfl,
        (createPiece_fits idx).1, rfl⟩
    · exact ⟨h, merged, _, _, hm, hs, playerDrop_lands h hm hs hc, rfl, rfl,
        (createPiece_fits idx).1, rfl⟩
  · exact Or.inl ⟨h, playerDrop_falls h⟩

/-- C7 at the O shape resting on the floor of the empty board, at `x = 3`, `y = 18`. -/
theorem playerDrop_falls_or_lands_witness :
    BoardWF emptyBoard ∧
      collide emptyBoard ⟨[[1, 1], [1, 1]], 3, 18, "yellow"⟩ = .ok false ∧
      ((collide emptyBoard ⟨[[1, 1], [1, 1]], 3, 18 + 1, "yellow"⟩ = .ok false ∧
          playerDrop 5 ⟨emptyBoard, ⟨[[1, 1], [1, 1]], 3, 18, "yellow"⟩, 700, 0, false⟩ =
            .ok ⟨emptyBoard, ⟨[[1, 1], [1, 1]], 3, 18 + 1, "yellow"⟩, 0, 0, false⟩) ∨
        (collide emptyBoard ⟨[[1, 1], [1, 1]], 3, 18 + 1, "yellow"⟩ = .ok true ∧
          ∃ merged swept s',
            merge emptyBoard ⟨[[1, 1], [1, 1]], 3, 18, "yellow"⟩ = .ok merged ∧
            sweep merged = .ok swept ∧
            playerDrop 5 ⟨emptyBoard, ⟨[[1, 1], [1, 1]], 3, 18, "yellow"⟩, 700, 0, false⟩ =
              .ok s' ∧
            s'.board = swept ∧ s'.current = createPiece 5 ∧ s'.current.y = 0 ∧
            s'.dropCounter = 0)) :=
  ⟨by decide, by decide,
    playerDrop_falls_or_lands 5 ⟨emptyBoard, ⟨[[1, 1], [1, 1]], 3, 18, "yellow"⟩, 700, 0, false⟩
      (by decide) (by decide)⟩

theorem playerMove_gameOver {dir : Int} {s s' : State} (h : playerMove dir s = .ok s') :
    s'.gameOver = s.gameOver := by
  unfold playerMove at h
  split at h
  · cases h
  · cases h
    rfl
  · cases h
    rfl

theorem playerRotate_gameOver {s s' : State} (h : playerRotate s = .ok s') :
    s'.gameOver = s.gameOver := by
  unfold playerRotate at h
  split at h
  · cases h
  · cases h
    rfl
  · cases h
    rfl

theorem playerDrop_cases {idx : Fin 7} {s s' : State} (h : playerDrop idx s = .ok s') :
    (collide s.board { s.current with y := s.current.y + 1 } = .ok false ∧
        s' = { s with current := { s.current with y := s.current.y + 1 }, dropCounter := 0 }) ∨
      (collide s.board { s.current with y := s.current.y + 1 } = .ok true ∧
        ∃ merged swept c, merge s.board s.current = .ok merged ∧ sweep merged = .ok swept ∧
          collide swept (createPiece idx) = .ok c ∧
          s' = { board := swept, current := createPiece idx, dropCounter := 0,
                 lastTime := s.lastTime, gameOver := if c then true else s.gameOver }) := by
  cases h1 : collide s.board { s.current with y := s.current.y + 1 } with
  | error e =>
    simp only [playerDrop, h1] at h
    cases h
  | ok b =>
    cases b with
    | false =>
      rw [playerDrop_falls h1] at h
      cases h
      exact Or.inl ⟨rfl, rfl⟩
    | true =>
      right
      cases hm : merge s.board s.current with
      | error e =>
        simp only [playerDrop, h1, hm] at h
        cases h
      | ok merged =>
        cases hs : sweep merged with
        | error e =>
          simp only [playerDrop, h1, hm, hs] at h
          cases h
        | ok swept =>
          cases hc : collide swept (createPiece idx) with
          | error e =>
            simp only [playerDrop, h1, hm, hs, hc] at h
            cases h
          | ok c =>
            rw [playerDrop_lands h1 hm hs hc] at h
            cases h
            exact ⟨rfl, merged, swept, c, rfl, hs, hc, rfl⟩

/-- C8: from a state with `gameOver = false`, `playerDrop` ends with `gameOver = true`
exactly when the tentative descent collided and the newly created piece collides with the
board obtained by merge and sweep; `playerMove` and `playerRotate` leave `gameOver` as it
is, and `playerDrop` never takes `gameOver` from `true` to `false`. -/
theorem gameOver_iff_spawn_collides (idx : Fin 7) (s : State) (hrun : s.gameOver = false) :
    ((∃ s', playerDrop idx s = .ok s' ∧ s'.gameOver = true) ↔
        (collide s.board { s.current with y := s.current.y + 1 } = .ok true ∧
          ∃ merged swept, merge s.board s.current = .ok merged ∧ sweep merged = .ok swept ∧
            collide swept (createPiece idx) = .ok true)) ∧
      (∀ (dir : Int) (t t' : State), playerMove dir t = .ok t' → t'.gameOver = t.gameOver) ∧
      (∀ t t' : State, playerRotate t = .ok t' → t'.gameOver = t.gameOver) ∧
      (∀ (i : Fin 7) (t t' : State), t.gameOver = true → playerDrop i t = .ok t' →
        t'.gameOver = true) := by
  refine ⟨⟨?_, ?_⟩, fun _ _ _ h => playerMove_gameOver h, fun _ _ h => playerRotate_gameOver h,
    ?_⟩
  · rintro ⟨s', h, hgo⟩
    rcases playerDrop_cases h with ⟨_, hs'⟩ | ⟨h1, merged, swept, c, hm, hs, hc, hs'⟩
    · rw [hs'] at hgo
      rw [hrun] at hgo
      cases hgo
    · refine ⟨h1, merged, swept, hm, hs, ?_⟩
      cases c with
      | true => exact hc
      | false =>
        rw [hs'] at hgo
        simp only [Bool.false_eq_true, if_false] at hgo
        rw [hrun] at hgo
        cases hgo
  · rintro ⟨h1, merged, swept, hm, hs, hc⟩
    exact ⟨_, playerDrop_lands h1 hm hs hc, rfl⟩
  · intro i t t' ht h
    rcases playerDrop_cases h with ⟨_, hs'⟩ | ⟨_, _, _, c, _, _, _, hs'⟩
    · rw [hs']
      exact ht
    · rw [hs']
      cases c
      · simpa using ht
      · rfl

/-- C8 at a landing that ends the game: the O shape at the top of `towerBoard`, with the O
shape spawned next. -/
theorem gameOver_iff_spawn_collides_witness :
    (⟨towerBoard, createPiece 3, 1200, 0, false⟩ : State).gameOver = false ∧
      (∃ s', playerDrop 3 ⟨towerBoard, createPiece 3, 1200, 0, false⟩ = .ok s' ∧
        s'.gameOver = true) :=
  ⟨rfl, (gameOver_iff_spawn_collides 3 ⟨towerBoard, createPiece 3, 1200, 0, false⟩ rfl).1.mpr
    ⟨by decide, _, _, rfl, rfl, by decide⟩⟩

theorem collide_initial : ∀ idx : Fin 7, collide emptyBoard (createPiece idx) = .ok false := by
  decide

theorem emptyBoard_wf : BoardWF emptyBoard := by decide

theorem inv_initial (idx : Fin 7) : Inv (initialState idx) :=
  ⟨emptyBoard_wf, le_of_eq (createPiece_fits idx).1.symm, Or.inl (collide_initial idx)⟩

theorem inv_playerMove {dir : Int} {s s' : State} (hinv : Inv s)
    (h : playerMove dir s = .ok s') : Inv s' := by
  cases hc : collide s.board { s.current with x := s.current.x + dir } with
  | error e =>
    simp only [playerMove, hc] at h
    cases h
  | ok b =>
    cases b with
    | true =>
      simp only [playerMove, hc] at h
      cases h
      exact hinv
    | false =>
      simp only [playerMove, hc] at h
      cases h
      exact ⟨hinv.1, hinv.2.1, Or.inl hc⟩

theorem inv_playerRotate {s s' : State} (hinv : Inv s) (h : playerRotate s = .ok s') :
    Inv s' := by
  cases hc : collide s.board { s.current with shape := rotate s.current.shape } with
  | error e =>
    simp only [playerRotate, hc] at h
    cases h
  | ok b =>
    cases b with
    | true =>
      simp only [playerRotate, hc] at h
      cases h
      exact hinv
    | false =>
      simp only [playerRotate, hc] at h
      cases h
      exact ⟨hinv.1, hinv.2.1, Or.inl hc⟩

theorem inv_under_inGrid {s : State} (hinv : Inv s) :
    ∀ R C, Under s.current R C → InGrid R C := by
  rcases hinv.2.2 with h | ⟨_, idx, h⟩
  · exact collide_false_inGrid h
  · rw [h]
    exact createPiece_inGrid idx

theorem inv_playerDrop {idx : Fin 7} {s s' : State} (hinv : Inv s)
    (h : playerDrop idx s = .ok s') : Inv s' := by
  rcases playerDrop_cases h with ⟨h1, hs'⟩ | ⟨_, merged, swept, c, hm, hs, hc, hs'⟩
  · rw [hs']
    refine ⟨hinv.1, ?_, Or.inl h1⟩
    have := hinv.2.1
    show 0 ≤ s.current.y + 1
    omega
  · obtain ⟨merged', hm', hwfm, _⟩ := merge_spec hinv.1 (inv_under_inGrid hinv)
    rw [hm] at hm'
    cases hm'
    have hs2 := sweep_spec hwfm
    rw [hs] at hs2
    cases hs2
    rw [hs']
    refine ⟨sweptBoard_wf hwfm, le_of_eq (createPiece_fits idx).1.symm, ?_⟩
    cases c with
    | false => exact Or.inl hc
    | true => exact Or.inr ⟨rfl, idx, rfl⟩

theorem reachable_inv {s : State} (h : Reachable s) : Inv s := by
  induction h with
  | init idx => exact inv_initial idx
  | move dir _ _ hstep ih => exact inv_playerMove ih hstep
  | rotate _ hstep ih => exact inv_playerRotate ih hstep
  | drop idx _ hstep ih => exact inv_playerDrop ih hstep

theorem free_not_nonzeroAt {board : Board} {piece : Piece}
    (h : collide board piece = .ok false) {R C : Int} (hu : Under piece R C) :
    ¬ NonzeroAt board R C := by
  rintro ⟨_, _, cells, v, hcells, hv, hne⟩
  obtain ⟨_, row, hrow, hzero⟩ := hit_false (collide_false_hit h hu)
  rw [hcells] at hrow
  cases hrow
  rw [List.getD_eq_getElem?_getD, hv] at hzero
  exact hne hzero

/-- C9: in every state reachable from the initial state by `playerMove(-1)`,
`playerMove(1)`, `playerRotate` and `playerDrop` (any catalog shape at each spawn), if
`gameOver` is false then `collide(board, current)` returns `false`, and every board
coordinate under an occupied cell of the active piece is inside the board and is not a
nonzero board cell. -/
theorem active_piece_never_collides (s : State) (hreach : Reachable s)
    (hrun : s.gameOver = false) :
    collide s.board s.current = .ok false ∧
      ∀ R C, Under s.current R C → InGrid R C ∧ ¬ NonzeroAt s.board R C := by
  have hinv := reachable_inv hreach
  have hfree : collide s.board s.current = .ok false := by
    rcases hinv.2.2 with h | ⟨h, _⟩
    · exact h
    · rw [hrun] at h
      cases h
  exact ⟨hfree, fun R C hu => ⟨collide_false_inGrid hfree R C hu, free_not_nonzeroAt hfree hu⟩⟩

/-- C9 at the state after the first drop of a game that starts with the O shape. -/
theorem active_piece_never_collides_witness :
    Reachable ⟨emptyBoard, ⟨[[1, 1], [1, 1]], 4, 1, "yellow"⟩, 0, 0, false⟩ ∧
      (⟨emptyBoard, ⟨[[1, 1], [1, 1]], 4, 1, "yellow"⟩, 0, 0, false⟩ : State).gameOver = false ∧
      (collide emptyBoard ⟨[[1, 1], [1, 1]], 4, 1, "yellow"⟩ = .ok false ∧
        ∀ R C, Under ⟨[[1, 1], [1, 1]], 4, 1, "yellow"⟩ R C →
          InGrid R C ∧ ¬ NonzeroAt emptyBoard R C) :=
  have hreach : Reachable ⟨emptyBoard, ⟨[[1, 1], [1, 1]], 4, 1, "yellow"⟩, 0, 0, false⟩ :=
    Reachable.drop 0 (Reachable.init 3) (by decide)
  ⟨hreach, rfl, active_piece_never_collides _ hreach rfl⟩

/-- C10: for every 20 x 10 board, every active piece (its occupied cells are not above the
board) and every `dir`, in particular `-1` and `+1`, `playerMove(dir)` returns; when the
piece placed at `(x + dir, y)` does not collide the result has `x + dir`, otherwise it is
the given state; the board, the shape, `y`, the color and `gameOver` are the same in both
cases. -/
theorem playerMove_moves_or_stays (dir : Int) (s : State) (hwf : BoardWF s.board)
    (hrows : RowsNonneg s.current) :
    (collide s.board { s.current with x := s.current.x + dir } = .ok false ∧
        playerMove dir s =
          .ok { board := s.board
                current := { shape := s.current.shape, x := s.current.x + dir,
                             y := s.current.y, color := s.current.color }
                dropCounter := s.dropCounter
                lastTime := s.lastTime
                gameOver := s.gameOver }) ∨
      (collide s.board { s.current with x := s.current.x + dir } = .ok true ∧
        playerMove dir s = .ok s) := by
  have hrows' : RowsNonneg { s.current with x := s.current.x + dir } := hrows
  rcases collide_returns hwf hrows' with h | h
  · right
    refine ⟨h, ?_⟩
    simp only [playerMove, h]
  · left
    refine ⟨h, ?_⟩
    simp only [playerMove, h]

/-- C10 at the first piece of a game, the O shape, moved to the right. -/
theorem playerMove_moves_or_stays_witness :
    BoardWF (initialState 3).board ∧ RowsNonneg (initialState 3).current ∧
      ((collide (initialState 3).board
            { (initialState 3).current with x := (initialState 3).current.x + 1 } = .ok false ∧
          playerMove 1 (initialState 3) =
            .ok { board := (initialState 3).board
                  current := { shape := (initialState 3).current.shape
                               x := (initialState 3).current.x + 1
                               y := (initialState 3).current.y
                               color := (initialState 3).current.color }
                  dropCounter := (initialState 3).dropCounter
                  lastTime := (initialState 3).lastTime
                  gameOver := (initialState 3).gameOver }) ∨
        (collide (initialState 3).board
            { (initialState 3).current with x := (initialState 3).current.x + 1 } = .ok true ∧
          playerMove 1 (initialState 3) = .ok (initialState 3))) :=
  have hrows : RowsNonneg (initialState 3).current := rowsNonneg_of_y (by decide)
  ⟨by decide, hrows, playerMove_moves_or_stays 1 (initialState 3) (by decide) hrows⟩

/-- C11, as stated, fails: the T shape after one `rotate` has no occupied cell in its
column 0; at `x = 0` on the empty board it does not collide, the state is reachable, and
`playerMove(-1)` commits `x = -1`. -/
theorem playerMove_left_at_zero_moves :
    Reachable ⟨emptyBoard, ⟨[[0, 1, 0], [0, 1, 1], [0, 1, 0]], 0, 0, "purple"⟩, 0, 0, false⟩ ∧
      collide emptyBoard ⟨[[0, 1, 0], [0, 1, 1], [0, 1, 0]], 0, 0, "purple"⟩ = .ok false ∧
      playerMove (-1)
          ⟨emptyBoard, ⟨[[0, 1, 0], [0, 1, 1], [0, 1, 0]], 0, 0, "purple"⟩, 0, 0, false⟩ =
        .ok ⟨emptyBoard, ⟨[[0, 1, 0], [0, 1, 1], [0, 1, 0]], -1, 0, "purple"⟩, 0, 0, false⟩ := by
  refine ⟨?_, by decide, by decide⟩
  have h0 : Reachable ⟨emptyBoard, ⟨[[0, 1, 0], [0, 1, 1], [0, 1, 0]], 3, 0, "purple"⟩, 0, 0,
      false⟩ := Reachable.rotate (Reachable.init 5) (by decide)
  have h1 : Reachable ⟨emptyBoard, ⟨[[0, 1, 0], [0, 1, 1], [0, 1, 0]], 2, 0, "purple"⟩, 0, 0,
      false⟩ := Reachable.move (-1) h0 (Or.inl rfl) (by decide)
  have h2 : Reachable ⟨emptyBoard, ⟨[[0, 1, 0], [0, 1, 1], [0, 1, 0]], 1, 0, "purple"⟩, 0, 0,
      false⟩ := Reachable.move (-1) h1 (Or.inl rfl) (by decide)
  exact Reachable.move (-1) h2 (Or.inl rfl) (by decide)

/-- C11, amended: for every 20 x 10 board and every non-colliding piece with `x = 0` whose
shape has an occupied cell in its column 0, the tentative position `x = -1` collides and
`playerMove(-1)` gives back the state as it was, so `piece.x` is still 0. -/
theorem playerMove_left_wall (s : State) (hwf : BoardWF s.board)
    (hfree : collide s.board s.current = .ok false) (hx : s.current.x = 0)
    (hcol : ∃ r : Nat, Occupied s.current.shape r 0) :
    collide s.board { s.current with x := s.current.x + -1 } = .ok true ∧
      ∃ s', playerMove (-1) s = .ok s' ∧ s' = s ∧ s'.current.x = 0 := by
  have hrows0 : RowsNonneg s.current := rowsNonneg_of_free hfree
  have hrows : RowsNonneg { s.current with x := s.current.x + -1 } := hrows0
  obtain ⟨r, hocc⟩ := hcol
  have hcollides : Collides s.board { s.current with x := s.current.x + -1 } := by
    refine ⟨r, 0, hocc, Or.inl ?_⟩
    show s.current.x + -1 + ((0 : Nat) : Int) < 0
    rw [hx]
    decide
  have hc : collide s.board { s.current with x := s.current.x + -1 } = .ok true := by
    rcases collide_spec hwf hrows with h | h
    · exact h.1
    · exact absurd hcollides h.2
  refine ⟨hc, s, ?_, rfl, hx⟩
  simp only [playerMove, hc]

/-- The amended C11 at the first piece of a game, the T shape, brought to the left wall. -/
theorem playerMove_left_wall_witness :
    BoardWF emptyBoard ∧
      collide emptyBoard ⟨[[0, 1, 0], [1, 1, 1], [0, 0, 0]], 0, 0, "purple"⟩ = .ok false ∧
      (0 : Int) = 0 ∧
      (∃ r : Nat, Occupied [[0, 1, 0], [1, 1, 1], [0, 0, 0]] r 0) ∧
      (collide emptyBoard ⟨[[0, 1, 0], [1, 1, 1], [0, 0, 0]], 0 + -1, 0, "purple"⟩ = .ok true ∧
        ∃ s', playerMove (-1)
            ⟨emptyBoard, ⟨[[0, 1, 0], [1, 1, 1], [0, 0, 0]], 0, 0, "purple"⟩, 0, 0, false⟩ =
              .ok s' ∧
          s' = ⟨emptyBoard, ⟨[[0, 1, 0], [1, 1, 1], [0, 0, 0]], 0, 0, "purple"⟩, 0, 0, false⟩ ∧
          s'.current.x = 0) :=
  have hcol : ∃ r : Nat, Occupied [[0, 1, 0], [1, 1, 1], [0, 0, 0]] r 0 :=
    ⟨1, [1, 1, 1], 1, rfl, rfl, by decide⟩
  ⟨by decide, by decide, rfl, hcol,
    playerMove_left_wall
      ⟨emptyBoard, ⟨[[0, 1, 0], [1, 1, 1], [0, 0, 0]], 0, 0, "purple"⟩, 0, 0, false⟩
      (by decide) (by decide) rfl hcol⟩

theorem playerRotate_of_rows {s : State} (hwf : BoardWF s.board)
    (hrows : RowsNonneg { s.current with shape := rotate s.current.shape }) :
    (collide s.board { s.current with shape := rotate s.current.shape } = .ok false ∧
        playerRotate s =
          .ok { board := s.board
                current := { shape := rotate s.current.shape, x := s.current.x,
                             y := s.current.y, color := s.current.color }
                dropCounter := s.dropCounter
                lastTime := s.lastTime
                gameOver := s.gameOver }) ∨
      (collide s.board { s.current with shape := rotate s.current.shape } = .ok true ∧
        playerRotate s = .ok s) := by
  rcases collide_returns hwf hrows with h | h
  · right
    refine ⟨h, ?_⟩
    simp only [playerRotate, h]
  · left
    refine ⟨h, ?_⟩
    simp only [playerRotate, h]

/-- C12: for every board and active piece of a reachable state, `playerRotate` returns; the
shape becomes `rotate(shape)` when the rotated shape placed at the same `(x, y)` does not
collide, and the state is given back as it was otherwise; `x`, `y`, the color, the board
and `gameOver` are the same in both cases, no other position being tried. -/
theorem playerRotate_rotates_or_stays (s : State) (hreach : Reachable s) :
    (collide s.board { s.current with shape := rotate s.current.shape } = .ok false ∧
        playerRotate s =
          .ok { board := s.board
                current := { shape := rotate s.current.shape, x := s.current.x,
                             y := s.current.y, color := s.current.color }
                dropCounter := s.dropCounter
                lastTime := s.lastTime
                gameOver := s.gameOver }) ∨
      (collide s.board { s.current with shape := rotate s.current.shape } = .ok true ∧
        playerRotate s = .ok s) := by
  have hwf : BoardWF s.board := (reachable_inv hreach).1
  have hy : 0 ≤ s.current.y := (reachable_inv hreach).2.1
  have hrows : RowsNonneg { s.current with shape := rotate s.current.shape } := by
    intro r c _
    show 0 ≤ s.current.y + (r : Int)
    omega
  exact playerRotate_of_rows hwf hrows

/-- C12 at the upright I shape against the right wall (`x = 7`, `y = 0`), reached from the
start by one rotation and four moves to the right; there the rotated shape would pass the
last column and the rotation is rolled back. -/
theorem playerRotate_rotates_or_stays_witness :
    Reachable ⟨emptyBoard,
        ⟨[[0, 0, 1, 0], [0, 0, 1, 0], [0, 0, 1, 0], [0, 0, 1, 0]], 7, 0, "cyan"⟩, 0, 0, false⟩ ∧
      collide emptyBoard
          ⟨rotate [[0, 0, 1, 0], [0, 0, 1, 0], [0, 0, 1, 0], [0, 0, 1, 0]], 7, 0, "cyan"⟩ =
        .ok true ∧
      ((collide emptyBoard
            ⟨rotate [[0, 0, 1, 0], [0, 0, 1, 0], [0, 0, 1, 0], [0, 0, 1, 0]], 7, 0, "cyan"⟩ =
              .ok false ∧
          playerRotate ⟨emptyBoard,
              ⟨[[0, 0, 1, 0], [0, 0, 1, 0], [0, 0, 1, 0], [0, 0, 1, 0]], 7, 0, "cyan"⟩,
              0, 0, false⟩ =
            .ok ⟨emptyBoard,
              ⟨rotate [[0, 0, 1, 0], [0, 0, 1, 0], [0, 0, 1, 0], [0, 0, 1, 0]], 7, 0, "cyan"⟩,
              0, 0, false⟩) ∨
        (collide emptyBoard
            ⟨rotate [[0, 0, 1, 0], [0, 0, 1, 0], [0, 0, 1, 0], [0, 0, 1, 0]], 7, 0, "cyan"⟩ =
              .ok true ∧
          playerRotate ⟨emptyBoard,
              ⟨[[0, 0, 1, 0], [0, 0, 1, 0], [0, 0, 1, 0], [0, 0, 1, 0]], 7, 0, "cyan"⟩,
              0, 0, false⟩ =
            .ok ⟨emptyBoard,
              ⟨[[0, 0, 1, 0], [0, 0, 1, 0], [0, 0, 1, 0], [0, 0, 1, 0]], 7, 0, "cyan"⟩,
              0, 0, false⟩)) :=
  have h0 : Reachable ⟨emptyBoard,
      ⟨[[0, 0, 1, 0], [0, 0, 1, 0], [0, 0, 1, 0], [0, 0, 1, 0]], 3, 0, "cyan"⟩, 0, 0, false⟩ :=
    Reachable.rotate (Reachable.init 0) (by decide)
  have h1 : Reachable ⟨emptyBoard,
      ⟨[[0, 0, 1, 0], [0, 0, 1, 0], [0, 0, 1, 0], [0, 0, 1, 0]], 4, 0, "cyan"⟩, 0, 0, false⟩ :=
    Reachable.move 1 h0 (Or.inr rfl) (by decide)
  have h2 : Reachable ⟨emptyBoard,
      ⟨[[0, 0, 1, 0], [0, 0, 1, 0], [0, 0, 1, 0], [0, 0, 1, 0]], 5, 0, "cyan"⟩, 0, 0, false⟩ :=
    Reachable.move 1 h1 (Or.inr rfl) (by decide)
  have h3 : Reachable ⟨emptyBoard,
      ⟨[[0, 0, 1, 0], [0, 0, 1, 0], [0, 0, 1, 0], [0, 0, 1, 0]], 6, 0, "cyan"⟩, 0, 0, false⟩ :=
    Reachable.move 1 h2 (Or.inr rfl) (by decide)
  have h4 : Reachable ⟨emptyBoard,
      ⟨[[0, 0, 1, 0], [0, 0, 1, 0], [0, 0, 1, 0], [0, 0, 1, 0]], 7, 0, "cyan"⟩, 0, 0, false⟩ :=
    Reachable.move 1 h3 (Or.inr rfl) (by decide)
  ⟨h4, by decide, playerRotate_rotates_or_stays _ h4⟩

/-! ## Frame tick and key handler -/

/-- C13 at its failing input.  The ArrowDown key lands the O shape on `towerBoard`, the T
shape spawned next collides, and the game is over with `dropCounter = 0`.  The frame that
was already requested then runs `update(1001)`: `dropCounter` exceeds `dropInterval`, and
`playerDrop` is run although `gameOver` is true: the T shape is merged over occupied cells
and a new piece replaces it, so the board and the active piece both change. -/
theorem update_drops_after_gameOver :
    keydown 5 "ArrowDown" ⟨towerBoard, createPiece 3, 0, 0, false⟩ =
        .ok ⟨cappedBoard, createPiece 5, 0, 0, true⟩ ∧
      update 6 1001 ⟨cappedBoard, createPiece 5, 0, 0, true⟩ =
        .ok (⟨[[0, 0, 0, 0, 6, 4, 0, 0, 0, 0], [0, 0, 0, 6, 6, 6, 0, 0, 0, 0]] ++
              List.replicate 18 [0, 0, 0, 0, 1, 0, 0, 0, 0, 0],
            createPiece 6, 0, 1001, true⟩, false) ∧
      ([[0, 0, 0, 0, 6, 4, 0, 0, 0, 0], [0, 0, 0, 6, 6, 6, 0, 0, 0, 0]] ++
          List.replicate 18 [0, 0, 0, 0, 1, 0, 0, 0, 0, 0] : Board) ≠ cappedBoard ∧
      createPiece 6 ≠ createPiece 5 := by
  decide

/-- C14: when `gameOver` is true the key handler gives back the state as it is, for every
key; when `gameOver` is false, ArrowLeft, ArrowRight, ArrowDown and ArrowUp run
`playerMove(-1)`, `playerMove(1)`, `playerDrop` and `playerRotate`, and every other key
gives back the state as it is. -/
theorem keydown_dispatch (idx : Fin 7) (key : String) (s : State) :
    (s.gameOver = true → keydown idx key s = .ok s) ∧
      (s.gameOver = false →
        keydown idx "ArrowLeft" s = playerMove (-1) s ∧
        keydown idx "ArrowRight" s = playerMove 1 s ∧
        keydown idx "ArrowDown" s = playerDrop idx s ∧
        keydown idx "ArrowUp" s = playerRotate s ∧
        (key ≠ "ArrowLeft" → key ≠ "ArrowRight" → key ≠ "ArrowDown" → key ≠ "ArrowUp" →
          keydown idx key s = .ok s)) := by
  constructor
  · intro h
    simp only [keydown, h, if_true]
  · intro h
    refine ⟨?_, ?_, ?_, ?_, ?_⟩
    · simp only [keydown, h, Bool.false_eq_true, if_false, if_true]
    · rw [keydown, if_neg (by simp [h]), if_neg (by decide), if_pos rfl]
    · rw [keydown, if_neg (by simp [h]), if_neg (by decide), if_neg (by decide), if_pos rfl]
    · rw [keydown, if_neg (by simp [h]), if_neg (by decide), if_neg (by decide),
        if_neg (by decide), if_pos rfl]
    · intro h1 h2 h3 h4
      rw [keydown, if_neg (by simp [h]), if_neg h1, if_neg h2, if_neg h3, if_neg h4]

/-- C15: for every catalog index `i`, the piece created for `i` has shape `SHAPES[i]`,
color `COLORS[i]`, `y = 0` and `x = floor(COLS / 2) - ceil(w / 2)` for the width `w` of the
first shape row, which is 4 for the O shape (index 3) and 3 for the other six; the catalog
colors are pairwise distinct. -/
theorem createPiece_catalog (idx : Fin 7) :
    SHAPES[idx.val]? = some (createPiece idx).shape ∧
      COLORS[idx.val]? = some (createPiece idx).color ∧
      (createPiece idx).y = 0 ∧
      (createPiece idx).x =
        Int.floor ((COLS : ℚ) / 2) -
          Int.ceil ((((createPiece idx).shape.getD 0 []).length : ℚ) / 2) ∧
      (createPiece idx).x = (if idx = 3 then 4 else 3) ∧
      COLORS.Nodup := by
  have hfloor : Int.floor ((COLS : ℚ) / 2) = 5 := by
    rw [Int.floor_eq_iff]
    norm_num [COLS]
  have hc4 : Int.ceil (((4 : Nat) : ℚ) / 2) = 2 := by
    rw [Int.ceil_eq_iff]
    norm_num
  have hc3 : Int.ceil (((3 : Nat) : ℚ) / 2) = 2 := by
    rw [Int.ceil_eq_iff]
    norm_num
  have hc2 : Int.ceil (((2 : Nat) : ℚ) / 2) = 1 := by
    rw [Int.ceil_eq_iff]
    norm_num
  have hnodup : COLORS.Nodup := by decide
  have key : ∀ (p : Piece) (w : Nat) (c : Int), (p.shape.getD 0 []).length = w →
      Int.ceil ((w : ℚ) / 2) = c → p.x = 5 - c →
      p.x = 5 - Int.ceil (((p.shape.getD 0 []).length : ℚ) / 2) := by
    intro p w c h1 h2 h3
    rw [h1, h2]
    exact h3
  rw [hfloor]
  fin_cases idx
  · exact ⟨rfl, rfl, rfl, key _ 4 2 rfl hc4 rfl, rfl, hnodup⟩
  · exact ⟨rfl, rfl, rfl, key _ 3 2 rfl hc3 rfl, rfl, hnodup⟩
  · exact ⟨rfl, rfl, rfl, key _ 3 2 rfl hc3 rfl, rfl, hnodup⟩
  · exact ⟨rfl, rfl, rfl, key _ 2 1 rfl hc2 rfl, rfl, hnodup⟩
  · exact ⟨rfl, rfl, rfl, key _ 3 2 rfl hc3 rfl, rfl, hnodup⟩
  · exact ⟨rfl, rfl, rfl, key _ 3 2 rfl hc3 rfl, rfl, hnodup⟩
  · exact ⟨rfl, rfl, rfl, key _ 3 2 rfl hc3 rfl, rfl, hnodup⟩

/-! ## Invariants of the reachable states -/

theorem indexOf_range (color : String) : -1 ≤ indexOf color ∧ indexOf color ≤ 6 := by
  unfold indexOf
  by_cases h : color ∈ COLORS
  · rw [if_pos h]
    have hlt : List.indexOf color COLORS < COLORS.length := List.indexOf_lt_length.mpr h
    have hlen : COLORS.length = 7 := rfl
    omega
  · rw [if_neg h]
    decide

theorem cellAt_of_getElem? {board : Board} {R C : Nat} {row : List Int} {v : Int}
    (hR : board[R]? = some row) (hC : row[C]? = some v) :
    cellAt board (R : Int) (C : Int) = some v := by
  unfold cellAt
  rw [if_pos ⟨Int.natCast_nonneg R, Int.natCast_nonneg C⟩, Int.toNat_natCast,
    Int.toNat_natCast, hR, Option.some_bind, hC]

theorem mem_of_cellAt {board : Board} {R C v : Int} (h : cellAt board R C = some v) :
    ∃ row ∈ board, v ∈ row := by
  unfold cellAt at h
  by_cases hRC : 0 ≤ R ∧ 0 ≤ C
  · rw [if_pos hRC] at h
    cases hrow : board[R.toNat]? with
    | none =>
      rw [hrow] at h
      cases h
    | some row =>
      rw [hrow, Option.some_bind] at h
      exact ⟨row, List.getElem?_mem hrow, List.getElem?_mem h⟩
  · rw [if_neg hRC] at h
    cases h

theorem merge_keeps_range {board : Board} (hwf : BoardWF board) (hrange : CellsInRange board)
    {piece : Piece} (hin : ∀ R C, Under piece R C → InGrid R C) :
    ∃ merged, merge board piece = .ok merged ∧ BoardWF merged ∧ CellsInRange merged := by
  obtain ⟨merged, hm, hwfm, hcells⟩ := merge_spec hwf hin
  refine ⟨merged, hm, hwfm, fun row hrow v hv => ?_⟩
  obtain ⟨R, hR⟩ := List.mem_iff_getElem?.mp hrow
  obtain ⟨C, hC⟩ := List.mem_iff_getElem?.mp hv
  have hcell := cellAt_of_getElem? hR hC
  by_cases hu : Under piece (R : Int) (C : Int)
  · rw [(hcells _ _).1 hu] at hcell
    have hv' : v = indexOf piece.color + 1 := (Option.some.inj hcell).symm
    have := indexOf_range piece.color
    omega
  · rw [(hcells _ _).2 hu] at hcell
    obtain ⟨row', hrow', hv'⟩ := mem_of_cellAt hcell
    exact hrange row' hrow' v hv'

theorem sweptBoard_keeps_range {board : Board} (hrange : CellsInRange board) :
    CellsInRange (sweptBoard board) := by
  intro row hrow v hv
  unfold sweptBoard at hrow
  rcases List.mem_append.mp hrow with h | h
  · rw [List.eq_of_mem_replicate h] at hv
    rw [List.eq_of_mem_replicate hv]
    decide
  · exact hrange row (List.mem_filter.mp h).1 v hv

theorem playerMove_board {dir : Int} {s s' : State} (h : playerMove dir s = .ok s') :
    s'.board = s.board := by
  unfold playerMove at h
  split at h
  · cases h
  · cases h
    rfl
  · cases h
    rfl

theorem playerRotate_board {s s' : State} (h : playerRotate s = .ok s') :
    s'.board = s.board := by
  unfold playerRotate at h
  split at h
  · cases h
  · cases h
    rfl
  · cases h
    rfl

theorem playerDrop_board {idx : Fin 7} {s s' : State} (hinv : Inv s)
    (h : playerDrop idx s = .ok s') :
    s'.board = s.board ∨
      ∃ merged, merge s.board s.current = .ok merged ∧ BoardWF merged ∧
        s'.board = sweptBoard merged := by
  rcases playerDrop_cases h with ⟨_, hs'⟩ | ⟨_, merged, swept, c, hm, hs, _, hs'⟩
  · left
    rw [hs']
  · right
    obtain ⟨merged', hm', hwfm, _⟩ := merge_spec hinv.1 (inv_under_inGrid hinv)
    rw [hm] at hm'
    cases hm'
    have hs2 := sweep_spec hwfm
    rw [hs] at hs2
    cases hs2
    exact ⟨merged, hm, hwfm, by rw [hs']⟩

theorem emptyBoard_cellsInRange : CellsInRange emptyBoard := by decide

theorem emptyBoard_noFullRow : NoFullRow emptyBoard := by
  intro row hrow
  rw [List.eq_of_mem_replicate hrow]
  decide

theorem reachable_board {s : State} (h : Reachable s) :
    CellsInRange s.board ∧ NoFullRow s.board := by
  induction h with
  | init idx => exact ⟨emptyBoard_cellsInRange, emptyBoard_noFullRow⟩
  | move dir _ _ hstep ih =>
    rw [playerMove_board hstep]
    exact ih
  | rotate _ hstep ih =>
    rw [playerRotate_board hstep]
    exact ih
  | drop idx hprev hstep ih =>
    have hinv := reachable_inv hprev
    rcases playerDrop_board hinv hstep with hb | ⟨merged, hm, _, hb⟩
    · rw [hb]
      exact ih
    · obtain ⟨merged', hm', _, hrange⟩ := merge_keeps_range hinv.1 ih.1 (inv_under_inGrid hinv)
      rw [hm] at hm'
      cases hm'
      rw [hb]
      exact ⟨sweptBoard_keeps_range hrange, fun row hrow => sweptBoard_no_full row hrow⟩

/-- C16: in every reachable state the board has `ROWS` rows of `COLS` cells and every cell
value is in `[0, 7]`; `merge` of a piece whose occupied cells are inside the grid and
`sweep` both return a board with these properties when given one. -/
theorem board_stays_well_formed (s : State) (hreach : Reachable s) :
    (BoardWF s.board ∧ CellsInRange s.board) ∧
      (∀ (board : Board) (piece : Piece), BoardWF board → CellsInRange board →
        (∀ R C, Under piece R C → InGrid R C) →
        ∃ merged, merge board piece = .ok merged ∧ BoardWF merged ∧ CellsInRange merged) ∧
      (∀ board : Board, BoardWF board → CellsInRange board →
        ∃ swept, sweep board = .ok swept ∧ BoardWF swept ∧ CellsInRange swept) :=
  ⟨⟨(reachable_inv hreach).1, (reachable_board hreach).1⟩,
    fun _ _ hwf hrange hin => merge_keeps_range hwf hrange hin,
    fun board hwf hrange =>
      ⟨sweptBoard board, sweep_spec hwf, sweptBoard_wf hwf, sweptBoard_keeps_range hrange⟩⟩

/-- C16 at the state after the first drop of a game that starts with the O shape. -/
theorem board_stays_well_formed_witness :
    Reachable ⟨emptyBoard, ⟨[[1, 1], [1, 1]], 4, 1, "yellow"⟩, 0, 0, false⟩ ∧
      ((BoardWF emptyBoard ∧ CellsInRange emptyBoard) ∧
        (∀ (board : Board) (piece : Piece), BoardWF board → CellsInRange board →
          (∀ R C, Under piece R C → InGrid R C) →
          ∃ merged, merge board piece = .ok merged ∧ BoardWF merged ∧ CellsInRange merged) ∧
        (∀ board : Board, BoardWF board → CellsInRange board →
          ∃ swept, sweep board = .ok swept ∧ BoardWF swept ∧ CellsInRange swept)) :=
  have hreach : Reachable ⟨emptyBoard, ⟨[[1, 1], [1, 1]], 4, 1, "yellow"⟩, 0, 0, false⟩ :=
    Reachable.drop 0 (Reachable.init 3) (by decide)
  ⟨hreach, board_stays_well_formed _ hreach⟩

theorem hit_lookup_inGrid {board : Board} {X Y : Int} {b : Bool} (h : hit board X Y = .ok b) :
    (X < 0 ∨ X ≥ (COLS : Int) ∨ Y ≥ (ROWS : Int)) ∨ InGrid Y X := by
  by_cases hb : Y ≥ (ROWS : Int) ∨ X < 0 ∨ X ≥ (COLS : Int)
  · rcases hb with hb | hb | hb
    · exact Or.inl (Or.inr (Or.inr hb))
    · exact Or.inl (Or.inl hb)
    · exact Or.inl (Or.inr (Or.inl hb))
  · right
    unfold hit at h
    rw [if_neg hb] at h
    by_cases hY : Y < 0
    · rw [if_pos hY] at h
      cases h
    · refine ⟨by omega, ?_, ?_, ?_⟩
      · by_contra hc
        exact hb (Or.inl (not_lt.mp hc))
      · by_contra hc
        exact hb (Or.inr (Or.inl (not_le.mp hc)))
      · by_contra hc
        exact hb (Or.inr (Or.inr (not_lt.mp hc)))

theorem inv_playerMove_returns {s : State} (hinv : Inv s) (dir : Int) :
    ∃ s', playerMove dir s = .ok s' := by
  have hrows0 : RowsNonneg s.current := rowsNonneg_of_y hinv.2.1
  have hrows : RowsNonneg { s.current with x := s.current.x + dir } := hrows0
  rcases collide_returns hinv.1 hrows with h | h
  · exact ⟨s, by simp only [playerMove, h]⟩
  · exact ⟨{ s with current := { s.current with x := s.current.x + dir } },
      by simp only [playerMove, h]⟩

theorem inv_playerRotate_returns {s : State} (hinv : Inv s) :
    ∃ s', playerRotate s = .ok s' := by
  have hy := hinv.2.1
  have hrows : RowsNonneg { s.current with shape := rotate s.current.shape } := by
    intro r c _
    show 0 ≤ s.current.y + (r : Int)
    omega
  rcases collide_returns hinv.1 hrows with h | h
  · exact ⟨s, by simp only [playerRotate, h]⟩
  · exact ⟨{ s with current := { s.current with shape := rotate s.current.shape } },
      by simp only [playerRotate, h]⟩

theorem inv_playerDrop_returns {s : State} (hinv : Inv s) (idx : Fin 7) :
    ∃ s', playerDrop idx s = .ok s' := by
  have hy := hinv.2.1
  have hrows : RowsNonneg { s.current with y := s.current.y + 1 } := by
    intro r c _
    show 0 ≤ s.current.y + 1 + (r : Int)
    omega
  rcases collide_returns hinv.1 hrows with h | h
  · obtain ⟨merged, hm, hwfm, _⟩ := merge_spec hinv.1 (inv_under_inGrid hinv)
    have hs := sweep_spec hwfm
    rcases collide_returns (sweptBoard_wf hwfm)
      (rowsNonneg_of_y (le_of_eq (createPiece_fits idx).1.symm)) with hc | hc
    · exact ⟨_, playerDrop_lands h hm hs hc⟩
    · exact ⟨_, playerDrop_lands h hm hs hc⟩
  · exact ⟨_, playerDrop_falls h⟩

/-- C19: in every reachable state the active piece has `y >= 0` and the board is 20 x 10;
a test of `collide` that returns has either stopped at a bounds test or looked up a cell
inside the grid; every cell under the piece, which is where `merge` inside `playerDrop`
writes, is inside the grid; and `playerMove`, `playerRotate` and `playerDrop` return
without a `TypeError`. -/
theorem no_out_of_range_access (s : State) (hreach : Reachable s) :
    0 ≤ s.current.y ∧ BoardWF s.board ∧
      (∀ (X Y : Int) (b : Bool), hit s.board X Y = .ok b →
        (X < 0 ∨ X ≥ (COLS : Int) ∨ Y ≥ (ROWS : Int)) ∨ InGrid Y X) ∧
      (∀ R C, Under s.current R C → InGrid R C) ∧
      (∀ dir : Int, ∃ s', playerMove dir s = .ok s') ∧
      (∃ s', playerRotate s = .ok s') ∧
      (∀ idx : Fin 7, ∃ s', playerDrop idx s = .ok s') := by
  have hinv := reachable_inv hreach
  exact ⟨hinv.2.1, hinv.1, fun _ _ _ h => hit_lookup_inGrid h, inv_under_inGrid hinv,
    inv_playerMove_returns hinv, inv_playerRotate_returns hinv, inv_playerDrop_returns hinv⟩

/-- C19 at the state after the first rotation of a game that starts with the T shape. -/
theorem no_out_of_range_access_witness :
    Reachable ⟨emptyBoard, ⟨[[0, 1, 0], [0, 1, 1], [0, 1, 0]], 3, 0, "purple"⟩, 0, 0, false⟩ ∧
      ((0 : Int) ≤ 0 ∧ BoardWF emptyBoard ∧
        (∀ (X Y : Int) (b : Bool), hit emptyBoard X Y = .ok b →
          (X < 0 ∨ X ≥ (COLS : Int) ∨ Y ≥ (ROWS : Int)) ∨ InGrid Y X) ∧
        (∀ R C, Under ⟨[[0, 1, 0], [0, 1, 1], [0, 1, 0]], 3, 0, "purple"⟩ R C → InGrid R C) ∧
        (∀ dir : Int, ∃ s', playerMove dir
          ⟨emptyBoard, ⟨[[0, 1, 0], [0, 1, 1], [0, 1, 0]], 3, 0, "purple"⟩, 0, 0, false⟩ =
            .ok s') ∧
        (∃ s', playerRotate
          ⟨emptyBoard, ⟨[[0, 1, 0], [0, 1, 1], [0, 1, 0]], 3, 0, "purple"⟩, 0, 0, false⟩ =
            .ok s') ∧
        (∀ idx : Fin 7, ∃ s', playerDrop idx
          ⟨emptyBoard, ⟨[[0, 1, 0], [0, 1, 1], [0, 1, 0]], 3, 0, "purple"⟩, 0, 0, false⟩ =
            .ok s')) :=
  have hreach : Reachable
      ⟨emptyBoard, ⟨[[0, 1, 0], [0, 1, 1], [0, 1, 0]], 3, 0, "purple"⟩, 0, 0, false⟩ :=
    Reachable.rotate (Reachable.init 5) (by decide)
  ⟨hreach, no_out_of_range_access _ hreach⟩

/-- C20: in every reachable state no row of the board is fully nonzero. -/
theorem no_full_row_between_commands (s : State) (hreach : Reachable s) :
    ∀ row ∈ s.board, fullyNonzero row = false :=
  (reachable_board hreach).2

/-- C20 at the state after the first move to the right of a game that starts with the Z
shape. -/
theorem no_full_row_between_commands_witness :
    Reachable ⟨emptyBoard, ⟨[[1, 1, 0], [0, 1, 1], [0, 0, 0]], 4, 0, "red"⟩, 0, 0, false⟩ ∧
      ∀ row ∈ emptyBoard, fullyNonzero row = false :=
  have hreach : Reachable
      ⟨emptyBoard, ⟨[[1, 1, 0], [0, 1, 1], [0, 0, 0]], 4, 0, "red"⟩, 0, 0, false⟩ :=
    Reachable.move 1 (Reachable.init 6) (Or.inr rfl) (by decide)
  ⟨hreach, no_full_row_between_commands _ hreach⟩

/-! ## The removals of one sweep -/

theorem sweepLoopLog_board : ∀ (fuel : Nat) (board : Board) (y : Int),
    sweepLoop fuel board y =
      match sweepLoopLog fuel board y with
      | .ok (swept, _) => .ok swept
      | .error e => .error e := by
  intro fuel
  induction fuel with
  | zero => intro board y; rfl
  | succ fuel ih =>
    intro board y
    unfold sweepLoop sweepLoopLog
    by_cases hy : y ≥ 0
    · rw [if_pos hy, if_pos hy]
      cases hrow : board[y.toNat]? with
      | none => rfl
      | some row =>
        simp only
        by_cases hfull : rowFull row = true
        · rw [if_pos hfull, if_pos hfull, ih]
          cases sweepLoopLog fuel (List.replicate COLS 0 :: board.eraseIdx y.toNat) (y + 1 - 1) with
          | error e => rfl
          | ok p => rfl
        · rw [if_neg hfull, if_neg hfull, ih]
    · rw [if_neg hy, if_neg hy]

theorem sweepLoopLog_log : ∀ (fuel : Nat) (board : Board) (n : Nat) (swept : Board)
    (log : List Nat), n ≤ board.length →
    sweepLoopLog fuel board ((n : Int) - 1) = .ok (swept, log) →
    log.length = (board.take n).countP rowFull ∧
      (∀ i ∈ log, i < n) ∧
      ((∀ (m : Nat) (row : List Int), n = m + 1 → board[m]? = some row → rowFull row = false) →
        ∀ i ∈ log, i + 1 < n) ∧
      ((∀ (i : Nat) (upper lower : List Int), i + 1 < n → board[i]? = some upper →
          board[i + 1]? = some lower → ¬ (rowFull upper = true ∧ rowFull lower = true)) →
        log.Nodup) := by
  intro fuel
  induction fuel with
  | zero =>
    intro board n swept log _ h
    simp only [sweepLoopLog] at h
    cases h
  | succ fuel ih =>
    intro board n swept log hn h
    cases n with
    | zero =>
      simp [sweepLoopLog] at h
      obtain ⟨_, hlog⟩ := h
      subst hlog
      simp
    | succ m =>
      have hm : m < board.length := hn
      have hy : ((m + 1 : Nat) : Int) - 1 = (m : Int) := by push_cast; ring
      have htake : board.take (m + 1) = board.take m ++ [board[m]] := by
        rw [List.take_succ, List.getElem?_eq_getElem hm]
        rfl
      rw [hy] at h
      unfold sweepLoopLog at h
      rw [if_pos (by omega : (m : Int) ≥ 0), Int.toNat_natCast, List.getElem?_eq_getElem hm] at h
      simp only at h
      by_cases hfull : rowFull board[m] = true
      · rw [if_pos hfull] at h
        have hcall : (m : Int) + 1 - 1 = ((m + 1 : Nat) : Int) - 1 := by push_cast; ring
        rw [hcall] at h
        cases hr : sweepLoopLog fuel (List.replicate COLS 0 :: board.eraseIdx m)
            (((m + 1 : Nat) : Int) - 1) with
        | error e =>
          rw [hr] at h
          cases h
        | ok p =>
          obtain ⟨sw, lg⟩ := p
          rw [hr] at h
          simp only [Except.ok.injEq, Prod.mk.injEq] at h
          obtain ⟨_, hlog⟩ := h
          subst hlog
          have hlen : (List.replicate COLS (0 : Int) :: board.eraseIdx m).length =
              board.length := by
            rw [List.length_cons, List.length_eraseIdx, if_pos hm]
            omega
          have herase : ∀ j, j < m → (board.eraseIdx m)[j]? = board[j]? :=
            fun j hj => List.getElem?_eraseIdx_of_lt board m j hj
          have htm : (board.eraseIdx m).take m = board.take m := by
            rw [List.eraseIdx_eq_take_drop_succ]
            exact List.take_left' (by rw [List.length_take]; omega)
          have htake' : (List.replicate COLS (0 : Int) :: board.eraseIdx m).take (m + 1) =
              List.replicate COLS 0 :: board.take m := by
            rw [List.take_succ_cons, htm]
          obtain ⟨h1, h2, h3, h4⟩ := ih _ (m + 1) sw lg (by rw [hlen]; exact hn) hr
          refine ⟨?_, ?_, ?_, ?_⟩
          · rw [List.length_cons, h1, htake', List.countP_cons, rowFull_zeros, htake,
              List.countP_append]
            simp [hfull]
          · intro i hi
            rcases List.mem_cons.mp hi with h | h
            · omega
            · exact h2 i h
          · intro hnot
            have := hnot m board[m] rfl (List.getElem?_eq_getElem hm)
            rw [hfull] at this
            cases this
          · intro hadj
            rw [List.nodup_cons]
            constructor
            · intro hmem
              have hlt := h3 (by
                intro m' row hm' hrow
                have hmm : m' = m := by omega
                subst hmm
                cases m' with
                | zero =>
                  simp at hrow
                  rw [← hrow]
                  exact rowFull_zeros
                | succ k =>
                  rw [List.getElem?_cons_succ, herase k (by omega)] at hrow
                  have := hadj k row board[k + 1] (by omega) hrow (List.getElem?_eq_getElem hm)
                  by_contra hc
                  exact this ⟨by simpa using hc, hfull⟩) m hmem
              omega
            · apply h4
              intro i upper lower hi hu hl
              rw [List.getElem?_cons_succ, herase i (by omega)] at hl
              cases i with
              | zero =>
                simp at hu
                rw [← hu, rowFull_zeros]
                simp
              | succ j =>
                rw [List.getElem?_cons_succ, herase j (by omega)] at hu
                exact hadj j upper lower (by omega) hu hl
      · rw [if_neg hfull] at h
        have hfull' : rowFull board[m] = false := by simpa using hfull
        obtain ⟨h1, h2, _, h4⟩ := ih board m swept log (by omega) h
        refine ⟨?_, ?_, ?_, ?_⟩
        · rw [h1, htake, List.countP_append]
          simp [hfull']
        · intro i hi
          have := h2 i hi
          omega
        · intro _ i hi
          have := h2 i hi
          omega
        · intro hadj
          exact h4 fun i upper lower hi hu hl => hadj i upper lower (by omega) hu hl

theorem sweepLog_returns {board : Board} (hwf : BoardWF board) :
    ∃ log, sweepLog board = .ok (sweptBoard board, log) := by
  have h := sweepLoopLog_board (2 * ROWS + 1) board ((ROWS : Int) - 1)
  have hs : sweepLoop (2 * ROWS + 1) board ((ROWS : Int) - 1) = .ok (sweptBoard board) :=
    sweep_spec hwf
  rw [hs] at h
  unfold sweepLog
  cases hr : sweepLoopLog (2 * ROWS + 1) board ((ROWS : Int) - 1) with
  | error e =>
    rw [hr] at h
    cases h
  | ok p =>
    obtain ⟨sw, lg⟩ := p
    rw [hr] at h
    simp only [Except.ok.injEq] at h
    exact ⟨lg, by rw [h]⟩

/-- C17, as stated, fails: on the board whose two lowest rows are full, `sweep` removes a
row at index 19, re-examines index 19, finds the row that stood at index 18, which is full,
and removes a second row at index 19. -/
theorem sweep_removes_twice_at_same_index :
    BoardWF (List.replicate 18 (List.replicate 10 0) ++
        [List.replicate 10 1, List.replicate 10 2]) ∧
      sweepLog (List.replicate 18 (List.replicate 10 0) ++
          [List.replicate 10 1, List.replicate 10 2]) = .ok (emptyBoard, [19, 19]) ∧
      ¬ ([19, 19] : List Nat).Nodup := by
  decide

/-- C17, amended: for every 20 x 10 board in which no two vertically adjacent rows are both
fully nonzero, one call of `sweep` removes at most one row at any given row index: the
record of the removal indices has no repetition, so no re-examination of an index after a
removal finds a full row. -/
theorem sweep_removes_once_per_index (board : Board) (hwf : BoardWF board)
    (hadj : NoAdjacentFull board) :
    sweep board = .ok (sweptBoard board) ∧
      ∃ log, sweepLog board = .ok (sweptBoard board, log) ∧ log.Nodup := by
  obtain ⟨log, hlog⟩ := sweepLog_returns hwf
  refine ⟨sweep_spec hwf, log, hlog, ?_⟩
  have h := sweepLoopLog_log (2 * ROWS + 1) board ROWS (sweptBoard board) log
    (le_of_eq hwf.1.symm) hlog
  apply h.2.2.2
  intro i upper lower _ hu hl
  rw [rowFull_eq_fullyNonzero (hwf.2 upper (List.getElem?_mem hu)),
    rowFull_eq_fullyNonzero (hwf.2 lower (List.getElem?_mem hl))]
  exact hadj i upper lower hu hl

theorem noAdjacentFull_of_check {board : Board}
    (h : ∀ i, i < board.length - 1 →
      ¬ (fullyNonzero (board.getD i []) = true ∧ fullyNonzero (board.getD (i + 1) []) = true)) :
    NoAdjacentFull board := by
  intro i upper lower hu hl
  have hlt : i + 1 < board.length := (List.getElem?_eq_some_iff.mp hl).1
  have := h i (by omega)
  rw [List.getD_eq_getElem?_getD, List.getD_eq_getElem?_getD, hu, hl] at this
  exact this

/-- The amended C17 at a board with full rows at indices 17 and 19 and a row with a gap
between them. -/
theorem sweep_removes_once_per_index_witness :
    BoardWF (List.replicate 17 (List.replicate 10 0) ++
        [List.replicate 10 3, [1, 1, 1, 0, 1, 1, 1, 1, 1, 1], List.replicate 10 2]) ∧
      NoAdjacentFull (List.replicate 17 (List.replicate 10 0) ++
        [List.replicate 10 3, [1, 1, 1, 0, 1, 1, 1, 1, 1, 1], List.replicate 10 2]) ∧
      (sweep (List.replicate 17 (List.replicate 10 0) ++
          [List.replicate 10 3, [1, 1, 1, 0, 1, 1, 1, 1, 1, 1], List.replicate 10 2]) =
          .ok (sweptBoard (List.replicate 17 (List.replicate 10 0) ++
            [List.replicate 10 3, [1, 1, 1, 0, 1, 1, 1, 1, 1, 1], List.replicate 10 2])) ∧
        ∃ log, sweepLog (List.replicate 17 (List.replicate 10 0) ++
            [List.replicate 10 3, [1, 1, 1, 0, 1, 1, 1, 1, 1, 1], List.replicate 10 2]) =
            .ok (sweptBoard (List.replicate 17 (List.replicate 10 0) ++
              [List.replicate 10 3, [1, 1, 1, 0, 1, 1, 1, 1, 1, 1], List.replicate 10 2]),
              log) ∧
          log.Nodup) :=
  have hadj : NoAdjacentFull (List.replicate 17 (List.replicate 10 0) ++
      [List.replicate 10 3, [1, 1, 1, 0, 1, 1, 1, 1, 1, 1], List.replicate 10 2]) := by
    apply noAdjacentFull_of_check
    decide
  ⟨by decide, hadj, sweep_removes_once_per_index _ (by decide) hadj⟩

theorem countP_remove_full {board : Board} {y : Nat} {row : List Int}
    (hrow : board[y]? = some row) (hfull : rowFull row = true) :
    (List.replicate COLS 0 :: board.eraseIdx y).countP rowFull + 1 = board.countP rowFull := by
  have hy : y < board.length := (List.getElem?_eq_some_iff.mp hrow).1
  have hb : board = board.take y ++ row :: board.drop (y + 1) := by
    have hget : board[y] = row := by
      have := List.getElem?_eq_getElem hy
      rw [hrow] at this
      exact (Option.some.inj this).symm
    rw [← hget, ← List.drop_eq_getElem_cons hy, List.take_append_drop]
  rw [List.countP_cons, rowFull_zeros, List.eraseIdx_eq_take_drop_succ, List.countP_append]
  conv_rhs => rw [hb, List.countP_append, List.countP_cons, hfull]
  simp only [Bool.false_eq_true, if_false, if_true]
  omega

/-- C18: for every 20 x 10 board `sweep` terminates: with any budget above `2 * ROWS`
iterations the loop ends and returns the swept board; the number of removals is the number
of fully-nonzero rows, at most `ROWS`; each removal lowers the number of full rows by one,
the inserted row of zeros not being full. -/
theorem sweep_terminates (board : Board) (hwf : BoardWF board) :
    (∀ fuel : Nat, 2 * ROWS < fuel →
        sweepLoop fuel board ((ROWS : Int) - 1) = .ok (sweptBoard board)) ∧
      (∃ log, sweepLog board = .ok (sweptBoard board, log) ∧
        log.length = board.countP fullyNonzero ∧ log.length ≤ ROWS) ∧
      (∀ (b : Board) (y : Nat) (row : List Int), b[y]? = some row → rowFull row = true →
        (List.replicate COLS 0 :: b.eraseIdx y).countP rowFull + 1 = b.countP rowFull) ∧
      rowFull (List.replicate COLS 0) = false := by
  have hlen : board.length = ROWS := hwf.1
  have hc : board.countP rowFull = board.countP fullyNonzero :=
    List.countP_congr fun row hrow => by rw [rowFull_eq_fullyNonzero (hwf.2 row hrow)]
  have hf : board.filter (fun row => !rowFull row) = board.filter (fun row => !fullyNonzero row) :=
    List.filter_congr fun row hrow => by rw [rowFull_eq_fullyNonzero (hwf.2 row hrow)]
  have hle : board.countP rowFull ≤ ROWS := by
    have := List.countP_le_length rowFull (l := board)
    omega
  refine ⟨fun fuel hfuel => ?_, ?_, fun b y row hrow hfull => countP_remove_full hrow hfull,
    rowFull_zeros⟩
  · have h := sweepLoop_spec fuel board ROWS (by omega) (by
      rw [List.take_of_length_le (by omega)]
      omega)
    rw [List.take_of_length_le (by omega), List.drop_of_length_le (by omega), hc, hf,
      List.append_nil] at h
    exact h
  · obtain ⟨log, hlog⟩ := sweepLog_returns hwf
    have h := sweepLoopLog_log (2 * ROWS + 1) board ROWS (sweptBoard board) log
      (le_of_eq hwf.1.symm) hlog
    have h1 := h.1
    rw [List.take_of_length_le (by omega), hc] at h1
    exact ⟨log, hlog, h1, by omega⟩

/-- C18 at the board whose two lowest rows are full. -/
theorem sweep_terminates_witness :
    BoardWF (List.replicate 18 (List.replicate 10 0) ++
        [List.replicate 10 1, List.replicate 10 2]) ∧
      ((∀ fuel : Nat, 2 * ROWS < fuel →
          sweepLoop fuel (List.replicate 18 (List.replicate 10 0) ++
              [List.replicate 10 1, List.replicate 10 2]) ((ROWS : Int) - 1) =
            .ok (sweptBoard (List.replicate 18 (List.replicate 10 0) ++
              [List.replicate 10 1, List.replicate 10 2]))) ∧
        (∃ log, sweepLog (List.replicate 18 (List.replicate 10 0) ++
              [List.replicate 10 1, List.replicate 10 2]) =
            .ok (sweptBoard (List.replicate 18 (List.replicate 10 0) ++
              [List.replicate 10 1, List.replicate 10 2]), log) ∧
          log.length = List.countP fullyNonzero (List.replicate 18 (List.replicate 10 0) ++
              [List.replicate 10 1, List.replicate 10 2]) ∧
          log.length ≤ ROWS) ∧
        (∀ (b : Board) (y : Nat) (row : List Int), b[y]? = some row → rowFull row = true →
          (List.replicate COLS 0 :: b.eraseIdx y).countP rowFull + 1 = b.countP rowFull) ∧
        rowFull (List.replicate COLS 0) = false) :=
  ⟨by decide, sweep_terminates _ (by decide)⟩

end Tetris
